import Mathlib

set_option maxHeartbeats 1600000
set_option maxRecDepth 16000

/-
Verification development for the miniscan document-detection and
rectification engine (the in-WebView scanner script).

Numeric model: the JavaScript engine computes with IEEE doubles; here all
arithmetic is carried out exactly over ℚ.  Decimal literals such as 0.1 or
0.299 are read as the exact rationals 1/10, 299/1000.  Comparisons that the
source routes through Math.sqrt or Math.acos are recast into equivalent
exact comparisons (squares, cosines); each such recast is noted at its
definition site.  Math.sqrt values that flow into output dimensions (the
`dist` helper) cannot be represented in ℚ and are modeled by an explicit
function parameter `sqrtA`; every theorem below holds for all choices of
that parameter.
-/

unseal Rat.add Rat.mul Rat.sub Rat.inv

/-- A 2-D point, source `[x, y]` pairs / `{x, y}` records. -/
structure Point where
  x : ℚ
  y : ℚ
deriving DecidableEq

/-- A detected quadrilateral in normalized coordinates, source `{tl,tr,br,bl}`. -/
structure Quad where
  tl : Point
  tr : Point
  br : Point
  bl : Point
deriving DecidableEq

/-- Insert a point into a list sorted by `key`, after all entries whose key is
`≤` the new key.  Together with a left fold this is insertion sort, which is
stable exactly like the JS `Array.prototype.sort` the source relies on. -/
def insertKey (key : Point → ℚ) (p : Point) : List Point → List Point
  | [] => [p]
  | q :: l => if key p < key q then p :: q :: l else q :: insertKey key p l

/-- Stable sort by `key`; models `pts.slice().sort((a,b) => key a - key b)`. -/
def sortKey (key : Point → ℚ) (l : List Point) : List Point :=
  l.foldl (fun acc p => insertKey key p acc) []

/-- Source `orderCorners` (part_001:494-499): sort the four points by y,
split into top and bottom halves, sort each half by x, and return
`[tl, tr, br, bl]`. -/
def orderCorners (pts : List Point) : List Point :=
  let sorted := sortKey (fun p => p.y) pts
  let top := sortKey (fun p => p.x) (sorted.take 2)
  let bot := sortKey (fun p => p.x) ((sorted.drop 2).take 2)
  [top.getD 0 ⟨0, 0⟩, top.getD 1 ⟨0, 0⟩, bot.getD 1 ⟨0, 0⟩, bot.getD 0 ⟨0, 0⟩]

/-- The numerical floor `1e-10` used throughout the source. -/
def numEps : ℚ := 1 / 10 ^ 10

/-- Source `contourArea` (part_001:470-478): shoelace formula
`|Σ_i (x_i·y_{i+1} − x_{i+1}·y_i)| / 2` over cyclically adjacent vertices. -/
def contourArea (pts : List Point) : ℚ :=
  |(List.range pts.length).foldl
      (fun acc i =>
        let p := pts.getD i ⟨0, 0⟩
        let q := pts.getD ((i + 1) % pts.length) ⟨0, 0⟩
        acc + p.x * q.y - q.x * p.y) 0| / 2

/-- The cross product tested at vertex `i` by `isConvex`. -/
def crossAt (pts : List Point) (i : ℕ) : ℚ :=
  let n := pts.length
  let a := pts.getD (i % n) ⟨0, 0⟩
  let b := pts.getD ((i + 1) % n) ⟨0, 0⟩
  let c := pts.getD ((i + 2) % n) ⟨0, 0⟩
  (b.x - a.x) * (c.y - b.y) - (b.y - a.y) * (c.x - b.x)

/-- Loop body of source `isConvex` (part_001:480-492): walk the vertices
keeping the first nonzero cross-product sign (crosses with `|·| < 1e-6` are
skipped); a sign flip returns false immediately, and the final answer is
`sign ≠ 0`. -/
def isConvexAux (pts : List Point) : List ℕ → ℤ → Bool
  | [], sign => decide (sign ≠ 0)
  | i :: rest, sign =>
      let cr := crossAt pts i
      if |cr| < 1 / 10 ^ 6 then isConvexAux pts rest sign
      else
        let s : ℤ := if cr > 0 then 1 else -1
        if sign = 0 then isConvexAux pts rest s
        else if s ≠ sign then false
        else isConvexAux pts rest sign

/-- Source `isConvex`. -/
def isConvex (pts : List Point) : Bool :=
  if pts.length < 3 then false
  else isConvexAux pts (List.range pts.length) 0

/-- Exact recast of the source's `len < minEdge` where `len = √len2`:
for `len2 ≥ 0`, `√len2 < e ↔ 0 ≤ e ∧ len2 < e²` (an `e ≤ 0` can never
exceed a square root, and for `e ≥ 0` squaring is monotone). -/
def edgeLenFail (len2 e : ℚ) : Prop := 0 ≤ e ∧ len2 < e ^ 2

instance (len2 e : ℚ) : Decidable (edgeLenFail len2 e) :=
  inferInstanceAs (Decidable (_ ∧ _))

/-- Exact recast of the source's angle gate at a vertex
(`angle = acos(clamp(dot/(len1·len2)))·180/π; angle < 30 || angle > 150`):
since `cos` is strictly decreasing, `angle < 30° ∨ angle > 150°` holds iff
`|dot|/(len1·len2) > √3/2`, i.e. iff `4·dot² > 3·len1²·len2²`.  When an edge
has zero length the source computes `0/0 = NaN`, whose comparisons with
30/150 are all false — matching `4·0² > 0` being false here. -/
def angleFail (dt l1sq l2sq : ℚ) : Prop := 4 * dt ^ 2 > 3 * (l1sq * l2sq)

instance (dt l1sq l2sq : ℚ) : Decidable (angleFail dt l1sq l2sq) :=
  inferInstanceAs (Decidable (_ > _))

/-- The angle at a vertex lies within the `[30°,150°]` gate (in the exact
cosine form explained at `angleFail`). -/
def angleWithinGate (dt l1sq l2sq : ℚ) : Prop := ¬ angleFail dt l1sq l2sq

/-- The data `(dot, len1², len2²)` of the two edge vectors at vertex `i` of
the polygon, as computed by `validateQuad` (`a = pts[(i-1+n)%n]`,
`b = pts[i]`, `c = pts[(i+1)%n]`, `v1 = a−b`, `v2 = c−b`).  Over ℕ the
source's `(i-1+n)%n` is written `(i+n-1)%n`. -/
def vertexData (pts : List Point) (i : ℕ) : ℚ × ℚ × ℚ :=
  let n := pts.length
  let a := pts.getD ((i + n - 1) % n) ⟨0, 0⟩
  let b := pts.getD (i % n) ⟨0, 0⟩
  let c := pts.getD ((i + 1) % n) ⟨0, 0⟩
  ((a.x - b.x) * (c.x - b.x) + (a.y - b.y) * (c.y - b.y),
   (a.x - b.x) ^ 2 + (a.y - b.y) ^ 2,
   (c.x - b.x) ^ 2 + (c.y - b.y) ^ 2)

/-- The vertex check of `validateQuad` fails at `i`: an adjacent edge is
shorter than `minEdge`, or the vertex angle is outside `[30°,150°]`. -/
def vertexFail (pts : List Point) (minEdge : ℚ) (i : ℕ) : Prop :=
  let d := vertexData pts i
  edgeLenFail d.2.1 minEdge ∨ edgeLenFail d.2.2 minEdge ∨ angleFail d.1 d.2.1 d.2.2

instance (pts : List Point) (minEdge : ℚ) (i : ℕ) :
    Decidable (vertexFail pts minEdge i) :=
  inferInstanceAs (Decidable (_ ∨ _ ∨ _))

/-- Source `validateQuad` (part_001:501-520): convexity, shoelace area
`≥ 0.1·w·h`, and per-vertex minimum edge length `0.1·min(w,h)` plus the
`[30°,150°]` angle gate. -/
def validateQuad (pts : List Point) (w h : ℚ) : Bool :=
  if isConvex pts = false then false
  else if contourArea pts < 1 / 10 * w * h then false
  else
    (List.range pts.length).all
      (fun i => decide (¬ vertexFail pts (min w h * (1 / 10)) i))

/-- A line in polar `(rho, theta)` form as produced by `houghLines`.  The
angle `theta ∈ [0°, 180°)` is carried exactly by the pair
`(c, s) = (cos θ, sin θ)` (hence `s ≥ 0`): the degree tests of
`findBestQuad` translate exactly — `30 < deg < 150 ↔ sin θ > 1/2` and
`deg < 60 ∨ deg > 120 ↔ |cos θ| > 1/2`, by strict monotonicity of cosine on
`[0°,180°)` — and every other use of `theta` is through `cos`/`sin`. -/
structure HLine where
  rho : ℚ
  c : ℚ
  s : ℚ
  votes : ℚ
deriving DecidableEq

/-- Source `deg > 30 && deg < 150` (exact recast, see `HLine`). -/
def isHorizontalLine (l : HLine) : Prop := 1 / 2 < l.s

instance (l : HLine) : Decidable (isHorizontalLine l) :=
  inferInstanceAs (Decidable (_ < _))

/-- Source `deg < 60 || deg > 120` (exact recast, see `HLine`). -/
def isVerticalLine (l : HLine) : Prop := 1 / 2 < l.c ∨ l.c < -(1 / 2)

instance (l : HLine) : Decidable (isVerticalLine l) :=
  inferInstanceAs (Decidable (_ ∨ _))

/-- Source `lineIntersection` (part_001:765-773): solve the 2×2 polar-form
system; `none` when the determinant magnitude is below `1e-10`. -/
def lineIntersection (l1 l2 : HLine) : Option Point :=
  let det := l1.c * l2.s - l2.c * l1.s
  if |det| < numEps then none
  else some ⟨(l1.rho * l2.s - l2.rho * l1.s) / det,
             (l2.rho * l1.c - l1.rho * l2.c) / det⟩

/-- All ordered pairs `(ls[i], ls[j])` with `i < j`, in the order of the
source's double loop. -/
def pairsAfter {α : Type} : List α → List (α × α)
  | [] => []
  | x :: t => t.map (fun y => (x, y)) ++ pairsAfter t

/-- The pair-selection of `findBestQuad` for one direction family
(part_001:792-835): first the maximal spread `max |key i − key j|` over all
pairs, then the pair maximizing
`(votes_i + votes_j) · (0.6 + 0.4·spread/(maxSpread || 1))`, returned with
the smaller key first; `none` when no pair beats the initial score 0. -/
def bestPair (key : HLine → ℚ) (ls : List HLine) : Option (HLine × HLine) :=
  let ms := (pairsAfter ls).foldl (fun m p => max m |key p.1 - key p.2|) 0
  let msd := if ms = 0 then 1 else ms
  ((pairsAfter ls).foldl
    (fun acc p =>
      let spread := |key p.1 - key p.2|
      let score := (p.1.votes + p.2.votes) * (3 / 5 + 2 / 5 * spread / msd)
      if score > acc.1 then (score, some (if key p.1 < key p.2 then p else (p.2, p.1)))
      else acc)
    ((0 : ℚ), (none : Option (HLine × HLine)))).2

/-- `Math.max(0, Math.min(1, v))`. -/
def clamp01 (v : ℚ) : ℚ := max 0 (min 1 v)

/-- Normalization of a pixel-space corner to `[0,1]` image coordinates. -/
def normPoint (w h : ℚ) (p : Point) : Point := ⟨clamp01 (p.x / w), clamp01 (p.y / h)⟩

/-- The quadrilateral-area expression inlined in `findBestQuad`
(part_001:855-860), `0.5 · |Σ of the four vertex cross terms|`. -/
def houghQuadArea (tl tr br bl : Point) : ℚ :=
  1 / 2 * |(tr.x - tl.x) * (bl.y - tl.y) - (bl.x - tl.x) * (tr.y - tl.y) +
    ((br.x - tr.x) * (tl.y - tr.y) - (tl.x - tr.x) * (br.y - tr.y)) +
    ((bl.x - br.x) * (tr.y - br.y) - (tr.x - br.x) * (bl.y - br.y)) +
    ((tl.x - bl.x) * (br.y - bl.y) - (br.x - bl.x) * (tl.y - bl.y))|

/-- The corner-bounds check of `findBestQuad` (part_001:846-853):
every coordinate within `[-0.1·max(w,h), 1.1·max(w,h)]`. -/
def houghBoundsOk (w h : ℚ) (p : Point) : Prop :=
  ¬ (p.x < -(1 / 10) * max w h ∨ p.x > 11 / 10 * max w h ∨
     p.y < -(1 / 10) * max w h ∨ p.y > 11 / 10 * max w h)

instance (w h : ℚ) (p : Point) : Decidable (houghBoundsOk w h p) :=
  inferInstanceAs (Decidable (¬ _))

/-- Source `findBestQuad` (part_001:775-869): classify lines into the two
(overlapping) direction families, keep at most 8 of each, pick the best pair
per family, intersect, check bounds and a 10%-of-image area, and return the
normalized corners.  Note it does NOT call `validateQuad`. -/
def findBestQuad (lines : List HLine) (w h : ℚ) : Option Quad :=
  if lines.length < 4 then none
  else
    let horizontal := lines.filter (fun l => decide (isHorizontalLine l))
    let vertical := lines.filter (fun l => decide (isVerticalLine l))
    if horizontal.length < 2 ∨ vertical.length < 2 then none
    else
      match bestPair (fun l => l.rho / l.s) (horizontal.take 8),
            bestPair (fun l => l.rho / l.c) (vertical.take 8) with
      | some (topLine, bottomLine), some (leftLine, rightLine) =>
        match lineIntersection topLine leftLine, lineIntersection topLine rightLine,
              lineIntersection bottomLine rightLine, lineIntersection bottomLine leftLine with
        | some tl, some tr, some br, some bl =>
          if ¬ (houghBoundsOk w h tl ∧ houghBoundsOk w h tr ∧
                houghBoundsOk w h br ∧ houghBoundsOk w h bl) then none
          else if houghQuadArea tl tr br bl < 1 / 10 * w * h then none
          else some ⟨normPoint w h tl, normPoint w h tr, normPoint w h br, normPoint w h bl⟩
        | _, _, _, _ => none
      | _, _ => none

/-- Scale a normalized quad back to pixel coordinates of a `w×h` image, as a
vertex list in `tl, tr, br, bl` order — the coordinates in which the
`validateQuad` criteria of the claim are expressed. -/
def denormQuad (q : Quad) (w h : ℚ) : List Point :=
  [⟨q.tl.x * w, q.tl.y * h⟩, ⟨q.tr.x * w, q.tr.y * h⟩,
   ⟨q.br.x * w, q.br.y * h⟩, ⟨q.bl.x * w, q.bl.y * h⟩]

/-- Four Hough lines (two at `θ = 90°`, i.e. `(c,s) = (0,1)`, with
`ρ = 50, 59`, and two at `θ = 0°`, `(c,s) = (1,0)`, with `ρ = −10, 110`)
forming a thin 120×9 rectangle on a 100×100 image. -/
def cexLines : List HLine :=
  [⟨50, 0, 1, 100⟩, ⟨59, 0, 1, 100⟩, ⟨-10, 1, 0, 100⟩, ⟨110, 1, 0, 100⟩]

/-- Entry access into a list-of-rows matrix (missing entries read 0). -/
def mget (M : List (List ℚ)) (r c : ℕ) : ℚ := (M.getD r []).getD c 0

/-- Pivot search of pass `col` of source `solve` (part_001:32-35): the first
row among `col..n-1` whose `|M[row][col]|` is maximal. -/
def maxRowFrom (M : List (List ℚ)) (col n : ℕ) : ℕ :=
  (List.range' (col + 1) (n - (col + 1))).foldl
    (fun mr row => if |mget M row col| > |mget M mr col| then row else mr) col

/-- The row swap `M[col] ↔ M[maxRow]` (part_001:36). -/
def swapRowsL (M : List (List ℚ)) (r1 r2 : ℕ) : List (List ℚ) :=
  (M.set r1 (M.getD r2 [])).set r2 (M.getD r1 [])

/-- Elimination below the pivot of pass `col` (part_001:38-41), rebuilt
functionally over the `n×(n+1)` augmented shape: rows `r > col` become
`M[r][j] − (M[r][col]/M[col][col])·M[col][j]` for `j ≥ col`. -/
def elimBelowL (M : List (List ℚ)) (col n : ℕ) : List (List ℚ) :=
  List.ofFn (fun r : Fin n => List.ofFn (fun c : Fin (n + 1) =>
    if col < r.val ∧ col ≤ c.val then
      mget M r c - mget M r col / mget M col col * mget M col c
    else mget M r c))

/-- One pass of the `solve` elimination loop: pivot search, swap, the
`1e-10` near-singularity bail-out (part_001:37), then elimination below. -/
def geStep (M : List (List ℚ)) (col n : ℕ) : Option (List (List ℚ)) :=
  let Ms := swapRowsL M col (maxRowFrom M col n)
  if |mget Ms col col| < numEps then none
  else some (elimBelowL Ms col n)

/-- The forward-elimination loop over columns, driven by structural fuel:
`geFwd n n 0 M` runs passes for columns `0..n-1`. -/
def geFwd (n : ℕ) : ℕ → ℕ → List (List ℚ) → Option (List (List ℚ))
  | 0, _, M => some M
  | fuel + 1, col, M =>
      if col < n then (geStep M col n).bind (geFwd n fuel (col + 1)) else some M

/-- Back substitution (part_001:43-48), processing rows `n-1` down to `0`:
`xs[i] = (M[i][n] − Σ_{j>i} M[i][j]·xs[j]) / M[i][i]`; `bsAux M n k` has
filled the last `k` entries of the solution vector. -/
def bsAux (M : List (List ℚ)) (n : ℕ) : ℕ → List ℚ
  | 0 => List.replicate n 0
  | k + 1 =>
      let xs := bsAux M n k
      let i := n - (k + 1)
      xs.set i ((mget M i n - ∑ j ∈ Finset.Ico (i + 1) n, mget M i j * xs.getD j 0)
        / mget M i i)

/-- Source `solve` (part_001:24-50): Gaussian elimination with partial
pivoting on the augmented `n×(n+1)` system (`M[i] = A[i] ++ [b[i]]`),
`none` when a pivot magnitude falls below `1e-10`, otherwise the
back-substituted solution vector. -/
def solve (A : List (List ℚ)) (b : List ℚ) : Option (List ℚ) :=
  let n := b.length
  let M := (List.range n).map (fun r => A.getD r [] ++ [b.getD r 0])
  (geFwd n n 0 M).map (fun M2 => bsAux M2 n n)

/-- A 3×3 matrix, source array `[m0..m8]` destructured as
`a b c d e f g h k` (part_001:70). -/
structure M3 where
  a : ℚ
  b : ℚ
  c : ℚ
  d : ℚ
  e : ℚ
  f : ℚ
  g : ℚ
  h : ℚ
  k : ℚ
deriving DecidableEq

/-- Source `computeHomography` (part_001:53-66): build the 8×8 DLT system
from the four point correspondences and solve it; the 9th entry is fixed
to 1. -/
def computeHomography (srcPts dstPts : List Point) : Option M3 :=
  let A := (List.range 4).flatMap (fun i =>
    let s := srcPts.getD i ⟨0, 0⟩
    let d := dstPts.getD i ⟨0, 0⟩
    [[s.x, s.y, 1, 0, 0, 0, -(d.x * s.x), -(d.x * s.y)],
     [0, 0, 0, s.x, s.y, 1, -(d.y * s.x), -(d.y * s.y)]])
  let b := (List.range 4).flatMap (fun i =>
    let d := dstPts.getD i ⟨0, 0⟩
    [d.x, d.y])
  (solve A b).map (fun hl =>
    ⟨hl.getD 0 0, hl.getD 1 0, hl.getD 2 0, hl.getD 3 0, hl.getD 4 0,
     hl.getD 5 0, hl.getD 6 0, hl.getD 7 0, 1⟩)

/-- The 3×3 determinant expression of `invert3x3` (part_001:71). -/
def det3 (m : M3) : ℚ :=
  m.a * (m.e * m.k - m.f * m.h) - m.b * (m.d * m.k - m.f * m.g)
    + m.c * (m.d * m.h - m.e * m.g)

/-- Source `invert3x3` (part_001:69-79): closed-form cofactor inversion,
`none` when `|det| < 1e-10`. -/
def invert3x3 (m : M3) : Option M3 :=
  if |det3 m| < numEps then none
  else
    let inv := 1 / det3 m
    some ⟨(m.e * m.k - m.f * m.h) * inv, (m.c * m.h - m.b * m.k) * inv,
          (m.b * m.f - m.c * m.e) * inv, (m.f * m.g - m.d * m.k) * inv,
          (m.a * m.k - m.c * m.g) * inv, (m.c * m.d - m.a * m.f) * inv,
          (m.d * m.h - m.e * m.g) * inv, (m.b * m.g - m.a * m.h) * inv,
          (m.a * m.e - m.b * m.d) * inv⟩

/-- The adjugate matrix implicit in `invert3x3` (its cofactor entries
without the `1/det` factor). -/
def adj3 (m : M3) : M3 :=
  ⟨m.e * m.k - m.f * m.h, m.c * m.h - m.b * m.k, m.b * m.f - m.c * m.e,
   m.f * m.g - m.d * m.k, m.a * m.k - m.c * m.g, m.c * m.d - m.a * m.f,
   m.d * m.h - m.e * m.g, m.b * m.g - m.a * m.h, m.a * m.e - m.b * m.d⟩

/-- Apply a 3×3 matrix to a homogeneous column vector. -/
def app3 (m : M3) (v : ℚ × ℚ × ℚ) : ℚ × ℚ × ℚ :=
  (m.a * v.1 + m.b * v.2.1 + m.c * v.2.2,
   m.d * v.1 + m.e * v.2.1 + m.f * v.2.2,
   m.g * v.1 + m.h * v.2.1 + m.k * v.2.2)

/-- Projective application of a homography to a point, as in `warp`
(part_001:107-109): divide by `w = g·x + h·y + k`. -/
def mapPoint (m : M3) (p : Point) : Point :=
  ⟨(m.a * p.x + m.b * p.y + m.c) / (m.g * p.x + m.h * p.y + m.k),
   (m.d * p.x + m.e * p.y + m.f) / (m.g * p.x + m.h * p.y + m.k)⟩

/-- One linear-system row equation `Σ_{j<n} M[r][j]·xs[j] = M[r][n]` of an
augmented matrix. -/
def rowEq (M : List (List ℚ)) (n : ℕ) (xs : List ℚ) (r : ℕ) : Prop :=
  ∑ j ∈ Finset.range n, mget M r j * xs.getD j 0 = mget M r n

/-- `xs` satisfies every row of the augmented system. -/
def solvesAll (M : List (List ℚ)) (n : ℕ) (xs : List ℚ) : Prop :=
  ∀ r < n, rowEq M n xs r

/-- Entries strictly below the diagonal are 0 in all columns `< col`. -/
def triBelow (M : List (List ℚ)) (col n : ℕ) : Prop :=
  ∀ r < n, ∀ j, j < col → j < r → mget M r j = 0

/-- Diagonal entries of the already-processed rows `< col` are nonzero. -/
def pivNZ (M : List (List ℚ)) (n col : ℕ) : Prop :=
  ∀ r, r < col → r < n → mget M r r ≠ 0

/-- Shape plus the two elimination invariants before pass `col`. -/
def geInv (M : List (List ℚ)) (n col : ℕ) : Prop :=
  M.length = n ∧ triBelow M col n ∧ pivNZ M n col

/-- `Math.floor` on exact rationals. -/
def jsFloor (q : ℚ) : ℤ := ⌊q⌋

/-- `Math.round` (JS rounds half toward +∞): `⌊q + 1/2⌋`. -/
def jsRound (q : ℚ) : ℤ := ⌊q + 1 / 2⌋

/-- Squared distance between two points; the source `dist` (part_001:81-83)
is the square root of this, which is modeled through the `sqrtA` parameter
(see the header note). -/
def dist2 (p1 p2 : Point) : ℚ := (p1.x - p2.x) ^ 2 + (p1.y - p2.y) ^ 2

/-- Source `bilinear` (part_001:86-100): sample channel `ch` at `(x, y)`
with edge clamping (`x1 = min(x0+1, sw-1)`, `x0 = max(0, x0)`, fractions
taken before clamping). -/
def bilinear (srcData : ℕ → ℚ) (sw sh : ℕ) (x y : ℚ) (ch : ℕ) : ℚ :=
  let x0 := jsFloor x
  let y0 := jsFloor y
  let x1 := min (x0 + 1) ((sw : ℤ) - 1)
  let y1 := min (y0 + 1) ((sh : ℤ) - 1)
  let x0c := max 0 x0
  let y0c := max 0 y0
  let fx := x - jsFloor x
  let fy := y - jsFloor y
  let idx00 := ((y0c * sw + x0c) * 4).toNat
  let idx10 := ((y0c * sw + x1) * 4).toNat
  let idx01 := ((y1 * sw + x0c) * 4).toNat
  let idx11 := ((y1 * sw + x1) * 4).toNat
  srcData (idx00 + ch) * (1 - fx) * (1 - fy) + srcData (idx10 + ch) * fx * (1 - fy)
    + srcData (idx01 + ch) * (1 - fx) * fy + srcData (idx11 + ch) * fx * fy

/-- The inverse-mapped source coordinate of destination pixel `(dx, dy)`
in `warp` (part_001:107-109). -/
def warpSrc (Hinv : M3) (dx dy : ℕ) : Point := mapPoint Hinv ⟨(dx : ℚ), (dy : ℚ)⟩

/-- The in-bounds test of `warp` (part_001:111),
`sx >= 0 && sx < sw && sy >= 0 && sy < sh`.  When the homogeneous divisor
`w` is zero, JS computes non-finite `sx`,`sy` for which every comparison is
false; this is modeled by the explicit `w ≠ 0` conjunct. -/
def warpInBounds (Hinv : M3) (sw sh : ℕ) (dx dy : ℕ) : Prop :=
  Hinv.g * dx + Hinv.h * dy + Hinv.k ≠ 0 ∧
  0 ≤ (warpSrc Hinv dx dy).x ∧ (warpSrc Hinv dx dy).x < (sw : ℚ) ∧
  0 ≤ (warpSrc Hinv dx dy).y ∧ (warpSrc Hinv dx dy).y < (sh : ℚ)

instance (Hinv : M3) (sw sh dx dy : ℕ) : Decidable (warpInBounds Hinv sw sh dx dy) :=
  inferInstanceAs (Decidable (_ ∧ _))

/-- The write trace of the `warp` double loop (part_001:105-118), row-major:
an in-bounds pixel writes its three bilinear channels then alpha 255, an
out-of-bounds pixel writes only alpha 255 (RGB keep the
`Uint8ClampedArray` zero initialization). -/
def warpWrites (srcData : ℕ → ℚ) (sw sh : ℕ) (Hinv : M3) (dw dh : ℕ) :
    List (ℕ × ℚ) :=
  (List.range dh).flatMap (fun dy =>
    (List.range dw).flatMap (fun dx =>
      let idx := (dy * dw + dx) * 4
      if warpInBounds Hinv sw sh dx dy then
        [(idx, bilinear srcData sw sh (warpSrc Hinv dx dy).x (warpSrc Hinv dx dy).y 0),
         (idx + 1, bilinear srcData sw sh (warpSrc Hinv dx dy).x (warpSrc Hinv dx dy).y 1),
         (idx + 2, bilinear srcData sw sh (warpSrc Hinv dx dy).x (warpSrc Hinv dx dy).y 2),
         (idx + 3, 255)]
      else [(idx + 3, (255 : ℚ))]))

/-- Replay a write trace into a zero-initialized buffer. -/
def runWrites (ws : List (ℕ × ℚ)) : ℕ → ℚ :=
  ws.foldl (fun f kv => Function.update f kv.1 kv.2) (fun _ => 0)

/-- Source `warp` (part_001:103-121): the final output buffer. -/
def warp (srcData : ℕ → ℚ) (sw sh : ℕ) (Hinv : M3) (dw dh : ℕ) : ℕ → ℚ :=
  runWrites (warpWrites srcData sw sh Hinv dw dh)

/-- The destination-pixel iteration order of the warp double loop, by pixel
id `dy·dw + dx`. -/
def warpPixelTrace (dw dh : ℕ) : List ℕ :=
  (List.range dh).flatMap (fun dy => (List.range dw).map (fun dx => dy * dw + dx))

/-- The enhancement mode selector, source `mode: 'bw'|'gray'|'color'`. -/
inductive EnhanceMode
  | bw
  | gray
  | color
deriving DecidableEq

/-- Source `processImage` (part_001:1101-1144) after the bitmap has been
decoded and drawn: scale the normalized corners to pixel space, compute the
output size (dimensions clamped to at least 100), compute and invert the
homography — either failure surfaces as `Except.error` with the source's
`throw new Error` message — then inverse-warp and apply the selected
enhancement filter (`enh`, a parameter: the gray/color filters use
`Math.pow`, see the header note). -/
def processImage (sqrtA : ℚ → ℚ)
    (enh : EnhanceMode → (ℕ → ℚ) → ℕ → ℕ → (ℕ → ℚ))
    (sw sh : ℕ) (srcData : ℕ → ℚ) (corners : Quad) (mode : EnhanceMode) :
    Except String ((ℕ → ℚ) × ℤ × ℤ) :=
  let tl : Point := ⟨corners.tl.x * sw, corners.tl.y * sh⟩
  let tr : Point := ⟨corners.tr.x * sw, corners.tr.y * sh⟩
  let br : Point := ⟨corners.br.x * sw, corners.br.y * sh⟩
  let bl : Point := ⟨corners.bl.x * sw, corners.bl.y * sh⟩
  let dw : ℤ := max (jsRound (max (sqrtA (dist2 tl tr)) (sqrtA (dist2 bl br)))) 100
  let dh : ℤ := max (jsRound (max (sqrtA (dist2 tl bl)) (sqrtA (dist2 tr br)))) 100
  match computeHomography [tl, tr, br, bl]
      [⟨0, 0⟩, ⟨(dw : ℚ), 0⟩, ⟨(dw : ℚ), (dh : ℚ)⟩, ⟨0, (dh : ℚ)⟩] with
  | none => Except.error "Failed to compute homography"
  | some H =>
    match invert3x3 H with
    | none => Except.error "Failed to invert homography"
    | some Hinv =>
      Except.ok (enh mode (warp srcData sw sh Hinv dw.toNat dh.toNat) dw.toNat dh.toNat,
        dw, dh)

/-- Three points are collinear: zero cross product of the two difference
vectors. -/
def collinear3 (p q r : Point) : Prop :=
  (q.x - p.x) * (r.y - p.y) - (r.x - p.x) * (q.y - p.y) = 0

instance (p q r : Point) : Decidable (collinear3 p q r) :=
  inferInstanceAs (Decidable (_ = _))

/-- Source `toGray` (part_001:150-156): BT.601 luma
`0.299·R + 0.587·G + 0.114·B` per pixel of an RGBA buffer. -/
def toGray (data : ℕ → ℚ) (w h : ℕ) : ℕ → ℚ :=
  fun i => 299 / 1000 * data (i * 4) + 587 / 1000 * data (i * 4 + 1)
    + 114 / 1000 * data (i * 4 + 2)

/-- The row prefix sums `Σ_{t ≤ x} gray[y·w + t]` accumulated by the
`rowSum` variable of `adaptiveThreshold`. -/
def rowSum (gray : ℕ → ℚ) (w y x : ℕ) : ℚ :=
  ∑ t ∈ Finset.range (x + 1), gray (y * w + t)

/-- The summed-area table of `adaptiveThreshold` (part_001:125-132):
`integral[(y+1)·(w+1)+(x+1)] = integral[y·(w+1)+(x+1)] + rowSum(y, x)`,
with the first row and column staying at their zero initialization. -/
def integralTbl (gray : ℕ → ℚ) (w : ℕ) : ℕ → ℕ → ℚ
  | 0, _ => 0
  | _ + 1, 0 => 0
  | y + 1, x + 1 => integralTbl gray w y (x + 1) + rowSum gray w y x

/-- Source `adaptiveThreshold` (part_001:124-147): per pixel the windowed
mean over the clamped `blockSize` window via the integral image
(ℕ-subtraction gives the source's `max(0, ·)` clamps), then binarize with
offset `C`. -/
def adaptiveThreshold (gray : ℕ → ℚ) (w h blockSize : ℕ) (C : ℚ) : ℕ → ℚ :=
  fun i =>
    let y := i / w
    let x := i % w
    let half := blockSize / 2
    let x1 := x - half
    let y1 := y - half
    let x2 := min (w - 1) (x + half)
    let y2 := min (h - 1) (y + half)
    let area : ℕ := (x2 - x1 + 1) * (y2 - y1 + 1)
    let sum := integralTbl gray w (y2 + 1) (x2 + 1) - integralTbl gray w y1 (x2 + 1)
      - integralTbl gray w (y2 + 1) x1 + integralTbl gray w y1 x1
    if gray i < sum / area - C then 0 else 255

/-- The adaptive block size of `enhanceBW` (part_001:161-162):
`max(15, round(min(w,h)/8) | 1)`, bumped if even (dead code, since `| 1`
already forces oddness). -/
def bwBlockSize (w h : ℕ) : ℕ :=
  let bs := max 15 ((jsRound (((min w h : ℕ) : ℚ) / 8)).toNat ||| 1)
  if bs % 2 = 0 then bs + 1 else bs

/-- Source `enhanceBW` (part_001:159-167): grayscale, adaptive threshold
with constant offset 10, then the binarized value written into all three
color channels of every pixel (alpha untouched). -/
def enhanceBW (data : ℕ → ℚ) (w h : ℕ) : ℕ → ℚ :=
  fun idx =>
    if idx / 4 < w * h ∧ idx % 4 < 3 then
      adaptiveThreshold (toGray data w h) w h (bwBlockSize w h) 10 (idx / 4)
    else data idx

/-- Outbound WebView messages (part_001:9-12): a `result`, a `corners`
report (possibly `null`), the three filter previews, or a tagged `error`
carrying a message string. -/
inductive OutMsg
  | result (base64 : String) (w h : ℤ)
  | corners (c : Option Quad)
  | filterPreviews (bw gray color : String)
  | error (message : String)
deriving DecidableEq

/-- Whether an outbound message is the tagged error variant. -/
def OutMsg.isError : OutMsg → Bool
  | OutMsg.error _ => true
  | _ => false

/-- Source `detectDocument`'s strategy cascade (part_001:1066-1081),
with the four strategies and the shared `cannyEdges`/`houghLines`
preprocessing as parameters named after the source functions they stand
for: primary gradient-direction RANSAC, secondary brightness segmentation,
then — on an edge map computed once — the contour strategy and finally the
Hough-line strategy. -/
def detectCascade {Gray EdgeMap Lines : Type}
    (gradientRansacDetection segmentBasedDetection : Gray → Option Quad)
    (cannyEdges : Gray → EdgeMap) (contourBasedDetection : EdgeMap → Option Quad)
    (houghLines : EdgeMap → Lines) (findBestQuadFn : Lines → Option Quad)
    (gray : Gray) : Option Quad :=
  match gradientRansacDetection gray with
  | some q => some q
  | none =>
    match segmentBasedDetection gray with
    | some q => some q
    | none =>
      let edges := cannyEdges gray
      match contourBasedDetection edges with
      | some q => some q
      | none => findBestQuadFn (houghLines edges)

/-- Source `detectDocument` (part_001:1046-1090) including the image-load
step: an undecodable payload (`img.onerror`) or a thrown exception resolves
`null`, a decoded image runs the cascade. -/
def detectDocument {Gray EdgeMap Lines : Type} (decoded : Option Gray)
    (gradientRansacDetection segmentBasedDetection : Gray → Option Quad)
    (cannyEdges : Gray → EdgeMap) (contourBasedDetection : EdgeMap → Option Quad)
    (houghLines : EdgeMap → Lines) (findBestQuadFn : Lines → Option Quad) :
    Option Quad :=
  match decoded with
  | none => none
  | some gray =>
      detectCascade gradientRansacDetection segmentBasedDetection cannyEdges
        contourBasedDetection houghLines findBestQuadFn gray

/-- Modelled from the spec: "Strategies are tried in fixed priority order;
the first to return a quad wins; if all four fail, detection returns
none" — the first `some` of a result list. -/
def firstSome {α : Type} : List (Option α) → Option α
  | [] => none
  | none :: t => firstSome t
  | some x :: _ => some x

/-- The `detect` branch of the message handler (part_001:1226-1233): the
detection result — quad or `null` — is always posted as a `corners`
message; there is no error path. -/
def handleDetect {Gray EdgeMap Lines : Type} (decoded : Option Gray)
    (gradientRansacDetection segmentBasedDetection : Gray → Option Quad)
    (cannyEdges : Gray → EdgeMap) (contourBasedDetection : EdgeMap → Option Quad)
    (houghLines : EdgeMap → Lines) (findBestQuadFn : Lines → Option Quad) :
    OutMsg :=
  OutMsg.corners (detectDocument decoded gradientRansacDetection segmentBasedDetection
    cannyEdges contourBasedDetection houghLines findBestQuadFn)

/-- The `process` branch of the message handler (part_001:1208-1225): a
rejected bitmap decode (undecodable payload, message abstracted as
`decodeErrMsg`) or a processing error is caught and posted as a tagged
error message; success posts the `result` message (pixel encoding
abstracted by `encode`). -/
def handleProcess (decoded : Option (ℕ → ℚ)) (decodeErrMsg : String)
    (sqrtA : ℚ → ℚ) (enh : EnhanceMode → (ℕ → ℚ) → ℕ → ℕ → (ℕ → ℚ))
    (sw sh : ℕ) (corners : Quad) (mode : EnhanceMode)
    (encode : (ℕ → ℚ) → String) : OutMsg :=
  match decoded with
  | none => OutMsg.error decodeErrMsg
  | some srcData =>
    match processImage sqrtA enh sw sh srcData corners mode with
    | Except.error m => OutMsg.error m
    | Except.ok res => OutMsg.result (encode res.1) res.2.1 res.2.2

/-- Source `previewFilters` (part_001:1147-1202): downscale so the longer
side is at most 500 (the resampled pixels abstracted as `srcData` at the
scaled size), rectify once at reduced resolution with the 50px dimension
floor, then produce all three enhancement variants. -/
def previewFilters (sqrtA : ℚ → ℚ)
    (enh : EnhanceMode → (ℕ → ℚ) → ℕ → ℕ → (ℕ → ℚ))
    (sw sh : ℕ) (srcData : ℕ → ℚ) (corners : Quad) :
    Except String ((ℕ → ℚ) × (ℕ → ℚ) × (ℕ → ℚ)) :=
  let tl : Point := ⟨corners.tl.x * sw, corners.tl.y * sh⟩
  let tr : Point := ⟨corners.tr.x * sw, corners.tr.y * sh⟩
  let br : Point := ⟨corners.br.x * sw, corners.br.y * sh⟩
  let bl : Point := ⟨corners.bl.x * sw, corners.bl.y * sh⟩
  let dw : ℤ := max (jsRound (max (sqrtA (dist2 tl tr)) (sqrtA (dist2 bl br)))) 50
  let dh : ℤ := max (jsRound (max (sqrtA (dist2 tl bl)) (sqrtA (dist2 tr br)))) 50
  match computeHomography [tl, tr, br, bl]
      [⟨0, 0⟩, ⟨(dw : ℚ), 0⟩, ⟨(dw : ℚ), (dh : ℚ)⟩, ⟨0, (dh : ℚ)⟩] with
  | none => Except.error "Failed to compute homography"
  | some H =>
    match invert3x3 H with
    | none => Except.error "Failed to invert homography"
    | some Hinv =>
      let warped := warp srcData sw sh Hinv dw.toNat dh.toNat
      Except.ok (enh EnhanceMode.bw warped dw.toNat dh.toNat,
        enh EnhanceMode.gray warped dw.toNat dh.toNat,
        enh EnhanceMode.color warped dw.toNat dh.toNat)

/-- The `previewFilters` branch of the message handler
(part_001:1234-1249): decode failure or a processing error is posted as a
tagged error; success posts the `filterPreviews` message. -/
def handlePreview (decoded : Option (ℕ → ℚ)) (decodeErrMsg : String)
    (sqrtA : ℚ → ℚ) (enh : EnhanceMode → (ℕ → ℚ) → ℕ → ℕ → (ℕ → ℚ))
    (sw sh : ℕ) (corners : Quad) (encode : (ℕ → ℚ) → String) : OutMsg :=
  match decoded with
  | none => OutMsg.error decodeErrMsg
  | some srcData =>
    match previewFilters sqrtA enh sw sh srcData corners with
    | Except.error m => OutMsg.error m
    | Except.ok res =>
        OutMsg.filterPreviews (encode res.1) (encode res.2.1) (encode res.2.2)

theorem insertKey_perm (key : Point → ℚ) (p : Point) (l : List Point) :
    (insertKey key p l).Perm (p :: l) := by
  induction l with
  | nil => simp [insertKey]
  | cons q t ih =>
      by_cases h : key p < key q
      · simp [insertKey, h]
      · simp only [insertKey, if_neg h]
        exact (ih.cons q).trans (List.Perm.swap p q t)

theorem sortKey_perm (key : Point → ℚ) (l : List Point) : (sortKey key l).Perm l := by
  suffices h : ∀ acc, (l.foldl (fun acc p => insertKey key p acc) acc).Perm (acc ++ l) by
    simpa using h []
  induction l with
  | nil => simp
  | cons p t ih =>
      intro acc
      have h1 : (p :: t).foldl (fun acc p => insertKey key p acc) acc
          = t.foldl (fun acc p => insertKey key p acc) (insertKey key p acc) := rfl
      have h2 := ih (insertKey key p acc)
      have h3 := (insertKey_perm key p acc).append_right t
      have h4 : ((p :: acc) ++ t).Perm (acc ++ p :: t) := by
        have hm : (acc ++ p :: t).Perm (p :: (acc ++ t)) := List.perm_middle
        simpa using hm.symm
      rw [h1]
      exact (h2.trans h3).trans h4

theorem insertKey_sorted (key : Point → ℚ) (p : Point) (l : List Point)
    (h : l.Pairwise (fun a b => key a ≤ key b)) :
    (insertKey key p l).Pairwise (fun a b => key a ≤ key b) := by
  induction l with
  | nil => simp [insertKey]
  | cons q t ih =>
      rcases List.pairwise_cons.mp h with ⟨hq, ht⟩
      by_cases hpq : key p < key q
      · simp only [insertKey, if_pos hpq]
        refine List.pairwise_cons.mpr ⟨?_, h⟩
        intro b hb
        rcases List.mem_cons.mp hb with hb | hb
        · exact le_of_lt (hb ▸ hpq)
        · exact (le_of_lt hpq).trans (hq b hb)
      · simp only [insertKey, if_neg hpq]
        refine List.pairwise_cons.mpr ⟨?_, ih ht⟩
        intro b hb
        have hmem := (insertKey_perm key p t).mem_iff.mp hb
        rcases List.mem_cons.mp hmem with hb2 | hb2
        · exact hb2 ▸ le_of_not_lt hpq
        · exact hq b hb2

theorem sortKey_sorted (key : Point → ℚ) (l : List Point) :
    (sortKey key l).Pairwise (fun a b => key a ≤ key b) := by
  suffices h : ∀ acc, acc.Pairwise (fun a b => key a ≤ key b) →
      (l.foldl (fun acc p => insertKey key p acc) acc).Pairwise
        (fun a b => key a ≤ key b) by
    exact h [] (by simp)
  induction l with
  | nil => intro acc hacc; simpa using hacc
  | cons p t ih =>
      intro acc hacc
      exact ih _ (insertKey_sorted key p acc hacc)

theorem exists_len4 {α : Type} (l : List α) (h : l.length = 4) :
    ∃ a b c d : α, l = [a, b, c, d] := by
  rcases l with _ | ⟨a, _ | ⟨b, _ | ⟨c, _ | ⟨d, rest⟩⟩⟩⟩
  · simp at h
  · simp at h
  · simp at h
  · simp at h
  · have hrest : rest = [] := by
      have : rest.length = 0 := by simpa using h
      simpa using this
    exact ⟨a, b, c, d, by rw [hrest]⟩

theorem sortKey_pair (key : Point → ℚ) (a b : Point) :
    sortKey key [a, b] = if key b < key a then [b, a] else [a, b] := rfl

/-- Structural facts about a first application of `orderCorners` on four
points: the result is `[t0, t1, b1, b0]` where the top pair is x-sorted
(stably, so an x-tie keeps the y-order), the bottom pair likewise, and every
top y is `≤` every bottom y. -/
theorem orderCorners_struct (p0 p1 p2 p3 : Point) :
    ∃ t0 t1 b0 b1 : Point,
      orderCorners [p0, p1, p2, p3] = [t0, t1, b1, b0] ∧
      t0.x ≤ t1.x ∧ b0.x ≤ b1.x ∧
      (t0.x = t1.x → t0.y ≤ t1.y) ∧ (b0.x = b1.x → b0.y ≤ b1.y) ∧
      t0.y ≤ b0.y ∧ t0.y ≤ b1.y ∧ t1.y ≤ b0.y ∧ t1.y ≤ b1.y := by
  have hperm := sortKey_perm (fun p => p.y) [p0, p1, p2, p3]
  have hsort := sortKey_sorted (fun p => p.y) [p0, p1, p2, p3]
  have hlen : (sortKey (fun p => p.y) [p0, p1, p2, p3]).length = 4 := by
    rw [hperm.length_eq]; rfl
  obtain ⟨S0, S1, S2, S3, hSeq⟩ := exists_len4 _ hlen
  rw [hSeq] at hsort
  simp only [List.pairwise_cons, List.mem_cons, List.not_mem_nil, or_false,
    List.mem_singleton, List.Pairwise.nil, and_true] at hsort
  have hy01 : S0.y ≤ S1.y := hsort.1 S1 (by simp)
  have hy02 : S0.y ≤ S2.y := hsort.1 S2 (by simp)
  have hy03 : S0.y ≤ S3.y := hsort.1 S3 (by simp)
  have hy12 : S1.y ≤ S2.y := hsort.2.1 S2 (by simp)
  have hy13 : S1.y ≤ S3.y := hsort.2.1 S3 (by simp)
  have hy23 : S2.y ≤ S3.y := hsort.2.2.1 S3 (by simp)
  have hOC : orderCorners [p0, p1, p2, p3] =
      [(sortKey (fun p => p.x) [S0, S1]).getD 0 ⟨0, 0⟩,
       (sortKey (fun p => p.x) [S0, S1]).getD 1 ⟨0, 0⟩,
       (sortKey (fun p => p.x) [S2, S3]).getD 1 ⟨0, 0⟩,
       (sortKey (fun p => p.x) [S2, S3]).getD 0 ⟨0, 0⟩] := by
    simp only [orderCorners, hSeq]
    rfl
  rw [sortKey_pair, sortKey_pair] at hOC
  by_cases htx : S1.x < S0.x
  · by_cases hbx : S3.x < S2.x
    · refine ⟨S1, S0, S3, S2, ?_, le_of_lt htx, le_of_lt hbx, ?_, ?_, hy13, hy12, hy03, hy02⟩
      · rw [hOC, if_pos htx, if_pos hbx]; rfl
      · intro hxe; exact absurd hxe.symm (ne_of_gt htx)
      · intro hxe; exact absurd hxe.symm (ne_of_gt hbx)
    · refine ⟨S1, S0, S2, S3, ?_, le_of_lt htx, le_of_not_lt hbx, ?_, ?_, hy12, hy13, hy02, hy03⟩
      · rw [hOC, if_pos htx, if_neg hbx]; rfl
      · intro hxe; exact absurd hxe.symm (ne_of_gt htx)
      · intro _; exact hy23
  · by_cases hbx : S3.x < S2.x
    · refine ⟨S0, S1, S3, S2, ?_, le_of_not_lt htx, le_of_lt hbx, ?_, ?_, hy03, hy02, hy13, hy12⟩
      · rw [hOC, if_neg htx, if_pos hbx]; rfl
      · intro _; exact hy01
      · intro hxe; exact absurd hxe.symm (ne_of_gt hbx)
    · refine ⟨S0, S1, S2, S3, ?_, le_of_not_lt htx, le_of_not_lt hbx, ?_, ?_, hy02, hy03, hy12, hy13⟩
      · rw [hOC, if_neg htx, if_neg hbx]; rfl
      · intro _; exact hy01
      · intro _; exact hy23

/-- Idempotence of `orderCorners` on any list already carrying the structural
facts produced by a first application. -/
theorem orderCorners_idem_core (t0 t1 b0 b1 : Point)
    (hA : t0.x ≤ t1.x) (hB : b0.x ≤ b1.x)
    (hD : t0.x = t1.x → t0.y ≤ t1.y) (hE : b0.x = b1.x → b0.y ≤ b1.y)
    (h1 : t0.y ≤ b0.y) (h2 : t0.y ≤ b1.y) (h3 : t1.y ≤ b0.y) (h4 : t1.y ≤ b1.y) :
    orderCorners [t0, t1, b1, b0] = [t0, t1, b1, b0] := by
  have n1 : ¬ (b1.y < t0.y) := not_lt.mpr h2
  have n2 : ¬ (b1.y < t1.y) := not_lt.mpr h4
  have n3 : ¬ (b0.y < t0.y) := not_lt.mpr h1
  have n4 : ¬ (b0.y < t1.y) := not_lt.mpr h3
  by_cases ht : t1.y < t0.y
  · have htx : t0.x < t1.x :=
      lt_of_le_of_ne hA (fun he => absurd (hD he) (not_le.mpr ht))
    by_cases hb : b0.y < b1.y
    · simp [orderCorners, sortKey, insertKey, ht, hb, n1, n2, n3, n4, htx,
        not_lt.mpr hB, not_lt.mpr (le_of_lt htx)]
    · by_cases hbx : b0.x < b1.x
      · simp [orderCorners, sortKey, insertKey, ht, hb, n1, n2, n3, n4, htx, hbx]
      · have hxe : b0.x = b1.x := le_antisymm hB (le_of_not_lt hbx)
        have hye : b0.y = b1.y := le_antisymm (hE hxe) (le_of_not_lt hb)
        have hbb : b0 = b1 := by
          cases b0; cases b1; simp_all
        subst hbb
        simp [orderCorners, sortKey, insertKey, ht, hb, n1, n2, n3, n4, htx, hbx]
  · by_cases hb : b0.y < b1.y
    · simp [orderCorners, sortKey, insertKey, ht, hb, n1, n2, n3, n4,
        not_lt.mpr hA, not_lt.mpr hB]
    · by_cases hbx : b0.x < b1.x
      · simp [orderCorners, sortKey, insertKey, ht, hb, n1, n2, n3, n4,
          not_lt.mpr hA, hbx]
      · have hxe : b0.x = b1.x := le_antisymm hB (le_of_not_lt hbx)
        have hye : b0.y = b1.y := le_antisymm (hE hxe) (le_of_not_lt hb)
        have hbb : b0 = b1 := by
          cases b0; cases b1; simp_all
        subst hbb
        simp [orderCorners, sortKey, insertKey, ht, hb, n1, n2, n3, n4,
          not_lt.mpr hA, hbx]

/-- C6: `orderCorners` is idempotent — applying it to a quad (list of four
points) already returned by `orderCorners` yields the same quad. -/
theorem orderCorners_idempotent (p0 p1 p2 p3 : Point) :
    orderCorners (orderCorners [p0, p1, p2, p3]) = orderCorners [p0, p1, p2, p3] := by
  obtain ⟨t0, t1, b0, b1, heq, hA, hB, hD, hE, h1, h2, h3, h4⟩ :=
    orderCorners_struct p0 p1 p2 p3
  rw [heq]
  exact orderCorners_idem_core t0 t1 b0 b1 hA hB hD hE h1 h2 h3 h4

/-- C10: the output of `orderCorners` on a list of exactly four points is a
permutation of the input — no point is lost, duplicated, or modified. -/
theorem orderCorners_permutation (p0 p1 p2 p3 : Point) :
    (orderCorners [p0, p1, p2, p3]).Perm [p0, p1, p2, p3] := by
  have hperm := sortKey_perm (fun p => p.y) [p0, p1, p2, p3]
  have hlen : (sortKey (fun p => p.y) [p0, p1, p2, p3]).length = 4 := by
    rw [hperm.length_eq]; rfl
  obtain ⟨S0, S1, S2, S3, hSeq⟩ := exists_len4 _ hlen
  have hOC : orderCorners [p0, p1, p2, p3] =
      [(sortKey (fun p => p.x) [S0, S1]).getD 0 ⟨0, 0⟩,
       (sortKey (fun p => p.x) [S0, S1]).getD 1 ⟨0, 0⟩,
       (sortKey (fun p => p.x) [S2, S3]).getD 1 ⟨0, 0⟩,
       (sortKey (fun p => p.x) [S2, S3]).getD 0 ⟨0, 0⟩] := by
    simp only [orderCorners, hSeq]
    rfl
  rw [sortKey_pair, sortKey_pair] at hOC
  rw [hSeq] at hperm
  have hfinal : ∀ u0 u1 v0 v1 : Point,
      ([u0, u1] : List Point).Perm [S0, S1] → ([v0, v1] : List Point).Perm [S2, S3] →
      ([u0, u1, v1, v0] : List Point).Perm [p0, p1, p2, p3] := by
    intro u0 u1 v0 v1 hu hv
    have hsw : ([u0, u1, v1, v0] : List Point).Perm ([u0, u1] ++ [v0, v1]) := by
      refine List.Perm.cons u0 (List.Perm.cons u1 ?_)
      exact List.Perm.swap v0 v1 []
    have happ : (([u0, u1] ++ [v0, v1]) : List Point).Perm ([S0, S1] ++ [S2, S3]) :=
      List.Perm.append hu hv
    exact (hsw.trans happ).trans hperm
  by_cases htx : S1.x < S0.x
  · by_cases hbx : S3.x < S2.x
    · rw [hOC, if_pos htx, if_pos hbx]
      exact hfinal S1 S0 S3 S2 (List.Perm.swap S0 S1 []) (List.Perm.swap S2 S3 [])
    · rw [hOC, if_pos htx, if_neg hbx]
      exact hfinal S1 S0 S2 S3 (List.Perm.swap S0 S1 []) (List.Perm.refl _)
  · by_cases hbx : S3.x < S2.x
    · rw [hOC, if_neg htx, if_pos hbx]
      exact hfinal S0 S1 S3 S2 (List.Perm.refl _) (List.Perm.swap S2 S3 [])
    · rw [hOC, if_neg htx, if_neg hbx]
      exact hfinal S0 S1 S2 S3 (List.Perm.refl _) (List.Perm.refl _)

/-- C7: every four-point polygon accepted by `validateQuad` on a `w×h`
image has shoelace area at least `0.1·w·h` and all four vertex angles within
the `[30°,150°]` gate (stated in the exact cosine form of `angleFail`). -/
theorem validateQuad_area_angles (p0 p1 p2 p3 : Point) (w h : ℚ)
    (hv : validateQuad [p0, p1, p2, p3] w h = true) :
    contourArea [p0, p1, p2, p3] ≥ 1 / 10 * w * h ∧
    ∀ i < 4, angleWithinGate (vertexData [p0, p1, p2, p3] i).1
      (vertexData [p0, p1, p2, p3] i).2.1 (vertexData [p0, p1, p2, p3] i).2.2 := by
  unfold validateQuad at hv
  split at hv
  · exact absurd hv (by simp)
  · split at hv
    · exact absurd hv (by simp)
    · rename_i hconv harea
      refine ⟨le_of_not_lt harea, ?_⟩
      intro i hi
      have hall := List.all_eq_true.mp hv i (by
        simp only [List.mem_range]
        simpa using hi)
      have hnf : ¬ vertexFail [p0, p1, p2, p3] (min w h * (1 / 10)) i :=
        of_decide_eq_true hall
      intro hang
      exact hnf (Or.inr (Or.inr hang))

/-- Witness for C7: the axis-aligned square `(0,0),(100,0),(100,100),(0,100)`
passes `validateQuad` on a 100×100 image, and the conclusions hold there. -/
theorem validateQuad_area_angles_witness :
    validateQuad [⟨0, 0⟩, ⟨100, 0⟩, ⟨100, 100⟩, ⟨0, 100⟩] 100 100 = true ∧
    (contourArea [⟨0, 0⟩, ⟨100, 0⟩, ⟨100, 100⟩, ⟨0, 100⟩] ≥ 1 / 10 * 100 * 100 ∧
     ∀ i < 4, angleWithinGate
       (vertexData [⟨0, 0⟩, ⟨100, 0⟩, ⟨100, 100⟩, ⟨0, 100⟩] i).1
       (vertexData [⟨0, 0⟩, ⟨100, 0⟩, ⟨100, 100⟩, ⟨0, 100⟩] i).2.1
       (vertexData [⟨0, 0⟩, ⟨100, 0⟩, ⟨100, 100⟩, ⟨0, 100⟩] i).2.2) :=
  ⟨by decide, validateQuad_area_angles _ _ _ _ 100 100 (by decide)⟩

/-- C1 counterexample: on a 100×100 image, `findBestQuad` — the quad
producer of the Hough-line cascade strategy — returns the quad
`(0,0.5),(1,0.5),(1,0.59),(0,0.59)`, whose pixel-space vertices fail
`validateQuad` (its area is 900 < 0.1·100·100 and its left/right edges have
length 9 < 0.1·min(100,100)). -/
theorem findBestQuad_invalid_cex :
    findBestQuad cexLines 100 100 =
      some ⟨⟨0, 1 / 2⟩, ⟨1, 1 / 2⟩, ⟨1, 59 / 100⟩, ⟨0, 59 / 100⟩⟩ ∧
    validateQuad
      (denormQuad ⟨⟨0, 1 / 2⟩, ⟨1, 1 / 2⟩, ⟨1, 59 / 100⟩, ⟨0, 59 / 100⟩⟩ 100 100)
      100 100 = false := by
  exact ⟨by decide, by decide⟩

/-- C1 (amended): every quad returned by the Hough strategy's
`findBestQuad` is the clamped normalization of four line-intersection
corners that passed the corner-bounds check and whose quadrilateral area is
at least `0.1·w·h`; the remaining `validateQuad` criteria (convexity, vertex
angles, minimum edge length) are not enforced by this strategy. -/
theorem findBestQuad_guarantee (lines : List HLine) (w h : ℚ) (q : Quad)
    (hq : findBestQuad lines w h = some q) :
    ∃ tl tr br bl : Point,
      houghBoundsOk w h tl ∧ houghBoundsOk w h tr ∧
      houghBoundsOk w h br ∧ houghBoundsOk w h bl ∧
      houghQuadArea tl tr br bl ≥ 1 / 10 * w * h ∧
      q = ⟨normPoint w h tl, normPoint w h tr, normPoint w h br, normPoint w h bl⟩ := by
  unfold findBestQuad at hq
  split at hq
  · simp at hq
  · dsimp only at hq
    split at hq
    · simp at hq
    · split at hq
      · split at hq
        · split at hq
          · simp at hq
          · split at hq
            · simp at hq
            · rename_i tl tr br bl h1 h2 h3 h4 hbounds harea
              have hb := not_not.mp hbounds
              refine ⟨tl, tr, br, bl, hb.1, hb.2.1, hb.2.2.1, hb.2.2.2,
                le_of_not_lt harea, ?_⟩
              exact (Option.some.injEq _ _ ▸ hq).symm
        · simp at hq
      · simp at hq

theorem foldl_preserve {α β : Type} (P : β → Prop) (f : β → α → β) (l : List α)
    (init : β) (h0 : P init) (hstep : ∀ b a, a ∈ l → P b → P (f b a)) :
    P (l.foldl f init) := by
  induction l generalizing init with
  | nil => exact h0
  | cons x t ih =>
      exact ih (f init x) (hstep init x (by simp) h0)
        (fun b a ha hb => hstep b a (by simp [ha]) hb)

theorem maxRowFrom_bounds (M : List (List ℚ)) (col n : ℕ) (h : col < n) :
    col ≤ maxRowFrom M col n ∧ maxRowFrom M col n < n := by
  unfold maxRowFrom
  refine foldl_preserve (fun mr => col ≤ mr ∧ mr < n) _ _ col ⟨le_refl col, h⟩ ?_
  intro b a ha hb
  have hmem : col + 1 ≤ a ∧ a < n := by
    rcases List.mem_range'.mp ha with ⟨i, hi, rfl⟩
    omega
  by_cases hc : |mget M a col| > |mget M b col|
  · simp only [if_pos hc]; omega
  · simp only [if_neg hc]; exact hb

theorem length_swapRowsL (M : List (List ℚ)) (r1 r2 : ℕ) :
    (swapRowsL M r1 r2).length = M.length := by
  simp [swapRowsL]

theorem length_elimBelowL (M : List (List ℚ)) (col n : ℕ) :
    (elimBelowL M col n).length = n := by
  simp [elimBelowL]

theorem getD_ofFn {α : Type} {n : ℕ} (f : Fin n → α) (i : ℕ) (d : α) :
    (List.ofFn f).getD i d = if h : i < n then f ⟨i, h⟩ else d := by
  rw [List.getD_eq_getElem?_getD, List.getElem?_ofFn]
  by_cases h : i < n
  · simp [List.ofFnNthVal, h]
  · simp [List.ofFnNthVal, h]

theorem mget_elimBelowL (M : List (List ℚ)) (col n r c : ℕ)
    (hr : r < n) (hc : c ≤ n) :
    mget (elimBelowL M col n) r c =
      if col < r ∧ col ≤ c then
        mget M r c - mget M r col / mget M col col * mget M col c
      else mget M r c := by
  have hc2 : c < n + 1 := by omega
  unfold elimBelowL
  unfold mget
  rw [getD_ofFn, dif_pos hr, getD_ofFn, dif_pos hc2]

theorem getD_set_eq_of_lt {α : Type} (l : List α) (i : ℕ) (v d : α) (h : i < l.length) :
    (l.set i v).getD i d = v := by
  rw [List.getD_eq_getElem?_getD, List.getElem?_set_self h, Option.getD_some]

theorem getD_set_ne {α : Type} (l : List α) (i j : ℕ) (v d : α) (h : i ≠ j) :
    (l.set i v).getD j d = l.getD j d := by
  rw [List.getD_eq_getElem?_getD, List.getElem?_set_ne h, ← List.getD_eq_getElem?_getD]

theorem mget_swapRowsL (M : List (List ℚ)) (r1 r2 : ℕ)
    (h1 : r1 < M.length) (h2 : r2 < M.length) (r c : ℕ) :
    mget (swapRowsL M r1 r2) r c =
      if r = r2 then mget M r1 c
      else if r = r1 then mget M r2 c
      else mget M r c := by
  unfold swapRowsL mget
  by_cases hr2 : r = r2
  · subst hr2
    rw [getD_set_eq_of_lt _ _ _ _ (by simpa using h2)]
    simp
  · rw [getD_set_ne _ _ _ _ _ (fun he => hr2 he.symm)]
    by_cases hr1 : r = r1
    · subst hr1
      rw [getD_set_eq_of_lt _ _ _ _ h1]
      simp [hr2]
    · rw [getD_set_ne _ _ _ _ _ (fun he => hr1 he.symm)]
      simp [hr2, hr1]

theorem geStep_props (M M2 : List (List ℚ)) (col n : ℕ) (hcol : col < n)
    (hlen : M.length = n) (hTri : triBelow M col n) (hPiv : pivNZ M n col)
    (hstep : geStep M col n = some M2) :
    M2.length = n ∧ triBelow M2 (col + 1) n ∧ pivNZ M2 n (col + 1) ∧
    ∀ xs, solvesAll M2 n xs → solvesAll M n xs := by
  obtain ⟨hmr1, hmr2⟩ := maxRowFrom_bounds M col n hcol
  unfold geStep at hstep
  dsimp only at hstep
  set mr := maxRowFrom M col n with hmrdef
  set Ms := swapRowsL M col mr with hMsdef
  split at hstep
  · exact absurd hstep (by simp)
  rename_i hpivbig
  have hM2 : M2 = elimBelowL Ms col n := (Option.some.inj hstep).symm
  have hp : mget Ms col col ≠ 0 := by
    intro h0
    apply hpivbig
    rw [h0]
    norm_num [numEps]
  have hMs : ∀ r c, mget Ms r c =
      if r = mr then mget M col c else if r = col then mget M mr c else mget M r c := by
    intro r c
    exact mget_swapRowsL M col mr (by omega) (by omega) r c
  have hlenMs : Ms.length = n := by rw [hMsdef, length_swapRowsL, hlen]
  have hTriMs : triBelow Ms col n := by
    intro r hr j hjc hjr
    rw [hMs]
    split
    · exact hTri col hcol j hjc hjc
    · split
      · exact hTri mr hmr2 j hjc (by omega)
      · exact hTri r hr j hjc hjr
  have hPivMs : pivNZ Ms n col := by
    intro r hrc hrn
    rw [hMs, if_neg (by omega), if_neg (by omega)]
    exact hPiv r hrc hrn
  have hswapTrans : ∀ xs, solvesAll Ms n xs → solvesAll M n xs := by
    intro xs hxs r hr
    by_cases h1 : r = col
    · have hh := hxs mr hmr2
      unfold rowEq at hh ⊢
      have he : ∀ c, mget Ms mr c = mget M r c := by
        intro c; rw [hMs, if_pos rfl, h1]
      rw [← he]
      rw [← hh]
      exact Finset.sum_congr rfl (fun j _ => by rw [he])
    · by_cases h2 : r = mr
      · have hcm : ¬ (col = mr) := fun hce => h1 (h2.trans hce.symm)
        have hh := hxs col hcol
        unfold rowEq at hh ⊢
        have he : ∀ c, mget Ms col c = mget M r c := by
          intro c; rw [hMs, if_neg hcm, if_pos rfl, h2]
        rw [← he, ← hh]
        exact Finset.sum_congr rfl (fun j _ => by rw [he])
      · have hh := hxs r hr
        unfold rowEq at hh ⊢
        have he : ∀ c, mget Ms r c = mget M r c := by
          intro c; rw [hMs, if_neg h2, if_neg h1]
        rw [← he, ← hh]
        exact Finset.sum_congr rfl (fun j _ => by rw [he])
  have hsplit : ∀ (g : ℕ → ℚ), ∑ j ∈ Finset.range n, g j =
      (∑ j ∈ Finset.range col, g j) + ∑ j ∈ Finset.Ico col n, g j := by
    intro g
    rw [Finset.range_eq_Ico, ← Finset.sum_Ico_consecutive _ (Nat.zero_le col) (le_of_lt hcol),
      ← Finset.range_eq_Ico]
  have helimTrans : ∀ xs, solvesAll (elimBelowL Ms col n) n xs → solvesAll Ms n xs := by
    intro xs hxs r hr
    by_cases hrc : col < r
    · have hrow := hxs r hr
      have hpivrow := hxs col hcol
      unfold rowEq at hrow hpivrow ⊢
      have hcolrow : ∀ c, c ≤ n → mget (elimBelowL Ms col n) col c = mget Ms col c := by
        intro c hc
        rw [mget_elimBelowL _ _ _ _ _ hcol hc]
        simp
      have hmod : ∀ c, col ≤ c → c ≤ n →
          mget (elimBelowL Ms col n) r c =
            mget Ms r c - mget Ms r col / mget Ms col col * mget Ms col c := by
        intro c h1 h2
        rw [mget_elimBelowL _ _ _ _ _ hr h2, if_pos ⟨hrc, h1⟩]
      have hunmod : ∀ c, c < col →
          mget (elimBelowL Ms col n) r c = mget Ms r c := by
        intro c h1
        rw [mget_elimBelowL _ _ _ _ _ hr (by omega), if_neg (by omega)]
      have hcol0 : ∀ j, j < col → mget Ms col j = 0 :=
        fun j hj => hTriMs col hcol j hj hj
      -- the pivot-row equation, with its leading zeros removed
      have hpiv2 : ∑ j ∈ Finset.Ico col n, mget Ms col j * xs.getD j 0 = mget Ms col n := by
        have h1 : ∑ j ∈ Finset.range n, mget Ms col j * xs.getD j 0 = mget Ms col n := by
          rw [← hcolrow n (le_refl n), ← hpivrow]
          exact Finset.sum_congr rfl (fun j hj => by
            rw [hcolrow j (le_of_lt (List.mem_range.mp (by simpa using hj)))])
        rw [hsplit] at h1
        have h2 : ∑ j ∈ Finset.range col, mget Ms col j * xs.getD j 0 = 0 := by
          apply Finset.sum_eq_zero
          intro j hj
          rw [hcol0 j (List.mem_range.mp (by simpa using hj))]
          ring
        rw [h2] at h1
        linarith
      set f := mget Ms r col / mget Ms col col with hfdef
      calc ∑ j ∈ Finset.range n, mget Ms r j * xs.getD j 0
          = (∑ j ∈ Finset.range col, mget (elimBelowL Ms col n) r j * xs.getD j 0)
            + ∑ j ∈ Finset.Ico col n,
                (mget (elimBelowL Ms col n) r j + f * mget Ms col j) * xs.getD j 0 := by
            rw [hsplit]
            congr 1
            · exact Finset.sum_congr rfl (fun j hj => by
                rw [hunmod j (List.mem_range.mp (by simpa using hj))])
            · refine Finset.sum_congr rfl (fun j hj => ?_)
              have hjm := Finset.mem_Ico.mp hj
              rw [hmod j hjm.1 (le_of_lt hjm.2)]
              ring
        _ = (∑ j ∈ Finset.range n, mget (elimBelowL Ms col n) r j * xs.getD j 0)
            + f * ∑ j ∈ Finset.Ico col n, mget Ms col j * xs.getD j 0 := by
            have hdist : ∑ j ∈ Finset.Ico col n,
                (mget (elimBelowL Ms col n) r j + f * mget Ms col j) * xs.getD j 0
              = (∑ j ∈ Finset.Ico col n, mget (elimBelowL Ms col n) r j * xs.getD j 0)
                + f * ∑ j ∈ Finset.Ico col n, mget Ms col j * xs.getD j 0 := by
              rw [Finset.mul_sum, ← Finset.sum_add_distrib]
              exact Finset.sum_congr rfl (fun j _ => by ring)
            rw [hdist, hsplit (fun j => mget (elimBelowL Ms col n) r j * xs.getD j 0)]
            ring
        _ = mget (elimBelowL Ms col n) r n + f * mget Ms col n := by
            rw [hrow, hpiv2]
        _ = mget Ms r n := by
            rw [hmod n (le_of_lt hcol) (le_refl n)]
            ring
    · have hrow := hxs r hr
      unfold rowEq at hrow ⊢
      have hunmod : ∀ c, c ≤ n →
          mget (elimBelowL Ms col n) r c = mget Ms r c := by
        intro c h1
        rw [mget_elimBelowL _ _ _ _ _ hr h1, if_neg (by omega)]
      rw [← hunmod n (le_refl n), ← hrow]
      exact Finset.sum_congr rfl (fun j hj => by
        rw [hunmod j (le_of_lt (List.mem_range.mp (by simpa using hj)))])
  refine ⟨by rw [hM2, length_elimBelowL], ?_, ?_, ?_⟩
  · intro r hr j hjc hjr
    rw [hM2]
    by_cases hj : j < col
    · rw [mget_elimBelowL _ _ _ _ _ hr (by omega)]
      split
      · rw [hTriMs r hr j hj hjr, hTriMs col hcol j hj hj]
        ring
      · exact hTriMs r hr j hj hjr
    · have hjcol : j = col := by omega
      subst hjcol
      rw [mget_elimBelowL _ _ _ _ _ hr (by omega), if_pos ⟨hjr, le_refl j⟩]
      field_simp
  · intro r hrc hrn
    rw [hM2]
    by_cases hreq : r = col
    · subst hreq
      rw [mget_elimBelowL _ _ _ _ _ hrn (by omega), if_neg (by omega)]
      exact hp
    · have hrlt : r < col := by omega
      rw [mget_elimBelowL _ _ _ _ _ hrn (by omega), if_neg (by omega)]
      exact hPivMs r hrlt hrn
  · intro xs hxs
    exact hswapTrans xs (helimTrans xs (hM2 ▸ hxs))

theorem geFwd_props (n : ℕ) (fuel : ℕ) :
    ∀ col M M2, n ≤ fuel + col → M.length = n → triBelow M col n → pivNZ M n col →
    geFwd n fuel col M = some M2 →
    M2.length = n ∧ triBelow M2 n n ∧ pivNZ M2 n n ∧
    ∀ xs, solvesAll M2 n xs → solvesAll M n xs := by
  induction fuel with
  | zero =>
      intro col M M2 hn hlen hT hP hge
      have hMM : M = M2 := Option.some.inj hge
      subst hMM
      exact ⟨hlen, fun r hr j hj1 hj2 => hT r hr j (by omega) hj2,
        fun r h1 h2 => hP r (by omega) h2, fun xs h => h⟩
  | succ fuel ih =>
      intro col M M2 hn hlen hT hP hge
      unfold geFwd at hge
      by_cases hcol : col < n
      · rw [if_pos hcol] at hge
        cases hgs : geStep M col n with
        | none => rw [hgs] at hge; simp at hge
        | some Mi =>
            rw [hgs] at hge
            have hge2 : geFwd n fuel (col + 1) Mi = some M2 := hge
            obtain ⟨hlen2, hT2, hP2, htrans⟩ := geStep_props M Mi col n hcol hlen hT hP hgs
            obtain ⟨hlen3, hT3, hP3, htrans2⟩ :=
              ih (col + 1) Mi M2 (by omega) hlen2 hT2 hP2 hge2
            exact ⟨hlen3, hT3, hP3, fun xs hxs => htrans xs (htrans2 xs hxs)⟩
      · rw [if_neg hcol] at hge
        have hMM : M = M2 := Option.some.inj hge
        subst hMM
        exact ⟨hlen, fun r hr j hj1 hj2 => hT r hr j (by omega) hj2,
          fun r h1 h2 => hP r (by omega) h2, fun xs h => h⟩

theorem length_bsAux (M : List (List ℚ)) (n k : ℕ) : (bsAux M n k).length = n := by
  induction k with
  | zero => simp [bsAux]
  | succ k ih => simp [bsAux, ih]

theorem bsAux_stable (M : List (List ℚ)) (n : ℕ) (k m j : ℕ)
    (hkm : k ≤ m) (hm : m ≤ n) (hj : n - k ≤ j) :
    (bsAux M n m).getD j 0 = (bsAux M n k).getD j 0 := by
  induction m with
  | zero =>
      have hk0 : k = 0 := by omega
      rw [hk0]
  | succ m ih =>
      by_cases hk : k = m + 1
      · rw [hk]
      · have hkm2 : k ≤ m := by omega
        simp only [bsAux]
        rw [getD_set_ne _ _ _ _ _ (by omega)]
        exact ih hkm2 (by omega)

theorem bsAux_solves (M : List (List ℚ)) (n : ℕ)
    (hT : triBelow M n n) (hP : pivNZ M n n) :
    solvesAll M n (bsAux M n n) := by
  intro r hr
  unfold rowEq
  set xs := bsAux M n n with hxsdef
  have hval : xs.getD r 0 =
      (mget M r n - ∑ j ∈ Finset.Ico (r + 1) n,
          mget M r j * (bsAux M n (n - r - 1)).getD j 0) / mget M r r := by
    have h1 : xs.getD r 0 = (bsAux M n (n - r)).getD r 0 :=
      bsAux_stable M n (n - r) n r (by omega) (le_refl n) (by omega)
    rw [h1]
    have h2 : n - r = (n - r - 1) + 1 := by omega
    rw [h2]
    simp only [bsAux]
    have hi : n - ((n - r - 1) + 1) = r := by omega
    rw [hi]
    rw [getD_set_eq_of_lt _ _ _ _ (by rw [length_bsAux]; omega)]
    have hfix : n - r - 1 + 1 - 1 = n - r - 1 := by omega
    rw [hfix]
  have hagree : ∀ j, r + 1 ≤ j →
      (bsAux M n (n - r - 1)).getD j 0 = xs.getD j 0 := by
    intro j hj
    exact (bsAux_stable M n (n - r - 1) n j (by omega) (le_refl n) (by omega)).symm
  have hsum : ∑ j ∈ Finset.range n, mget M r j * xs.getD j 0
      = mget M r r * xs.getD r 0
        + ∑ j ∈ Finset.Ico (r + 1) n, mget M r j * xs.getD j 0 := by
    rw [Finset.range_eq_Ico, ← Finset.sum_Ico_consecutive _ (Nat.zero_le r) (le_of_lt hr)]
    have hz : ∑ j ∈ Finset.Ico 0 r, mget M r j * xs.getD j 0 = 0 :=
      Finset.sum_eq_zero (fun j hj => by
        rw [hT r hr j (lt_trans (Finset.mem_Ico.mp hj).2 hr) (Finset.mem_Ico.mp hj).2]
        ring)
    rw [hz, zero_add, Finset.sum_eq_sum_Ico_succ_bot hr (fun j => mget M r j * xs.getD j 0)]
  have hIcoEq : ∑ j ∈ Finset.Ico (r + 1) n,
        mget M r j * (bsAux M n (n - r - 1)).getD j 0
      = ∑ j ∈ Finset.Ico (r + 1) n, mget M r j * xs.getD j 0 :=
    Finset.sum_congr rfl (fun j hj => by rw [hagree j (Finset.mem_Ico.mp hj).1])
  have hPr := hP r hr hr
  rw [hsum, hval, hIcoEq]
  field_simp

theorem solve_correct (A : List (List ℚ)) (b : List ℚ) (xs : List ℚ)
    (hlenA : ∀ r < b.length, (A.getD r []).length = b.length)
    (hs : solve A b = some xs) :
    ∀ r < b.length,
      ∑ j ∈ Finset.range b.length, mget A r j * xs.getD j 0 = b.getD r 0 := by
  unfold solve at hs
  dsimp only at hs
  cases hge : geFwd b.length b.length 0
      ((List.range b.length).map (fun r => A.getD r [] ++ [b.getD r 0])) with
  | none => rw [hge] at hs; simp at hs
  | some M2 =>
      rw [hge] at hs
      have hxs : xs = bsAux M2 b.length b.length := by
        simpa using hs.symm
      have hlen0 : ((List.range b.length).map
          (fun r => A.getD r [] ++ [b.getD r 0])).length = b.length := by simp
      have hT0 : triBelow ((List.range b.length).map
          (fun r => A.getD r [] ++ [b.getD r 0])) 0 b.length :=
        fun r _ j hj _ => absurd hj (Nat.not_lt_zero j)
      have hP0 : pivNZ ((List.range b.length).map
          (fun r => A.getD r [] ++ [b.getD r 0])) b.length 0 :=
        fun r hr _ => absurd hr (Nat.not_lt_zero r)
      obtain ⟨hlen2, hT2, hP2, htrans⟩ :=
        geFwd_props b.length b.length 0 _ M2 (by omega) hlen0 hT0 hP0 hge
      have hsol0 := htrans _ (bsAux_solves M2 b.length hT2 hP2)
      intro r hr
      have hrow := hsol0 r hr
      unfold rowEq at hrow
      have hrow0 : ∀ c, mget ((List.range b.length).map
          (fun r => A.getD r [] ++ [b.getD r 0])) r c
            = (A.getD r [] ++ [b.getD r 0]).getD c 0 := by
        intro c
        unfold mget
        congr 1
        rw [List.getD_eq_getElem?_getD, List.getElem?_map]
        rw [List.getElem?_range hr]
        rfl
      have hA : ∀ j, j < b.length → mget ((List.range b.length).map
          (fun r => A.getD r [] ++ [b.getD r 0])) r j = mget A r j := by
        intro j hj
        rw [hrow0]
        unfold mget
        rw [List.getD_append]
        rw [hlenA r hr]
        exact hj
      have hB : mget ((List.range b.length).map
          (fun r => A.getD r [] ++ [b.getD r 0])) r b.length = b.getD r 0 := by
        rw [hrow0]
        rw [List.getD_eq_getElem?_getD, List.getElem?_append_right (by
          rw [hlenA r hr])]
        rw [hlenA r hr]
        simp
      rw [← hB, ← hrow, hxs]
      exact Finset.sum_congr rfl (fun j hj => by
        rw [hA j (List.mem_range.mp (by simpa using hj))])

theorem computeHomography_eqs (s0 s1 s2 s3 d0 d1 d2 d3 : Point) (H : M3)
    (hch : computeHomography [s0, s1, s2, s3] [d0, d1, d2, d3] = some H) :
    H.k = 1 ∧
    (H.a * s0.x + H.b * s0.y + H.c = d0.x * (H.g * s0.x + H.h * s0.y + 1) ∧
     H.d * s0.x + H.e * s0.y + H.f = d0.y * (H.g * s0.x + H.h * s0.y + 1)) ∧
    (H.a * s1.x + H.b * s1.y + H.c = d1.x * (H.g * s1.x + H.h * s1.y + 1) ∧
     H.d * s1.x + H.e * s1.y + H.f = d1.y * (H.g * s1.x + H.h * s1.y + 1)) ∧
    (H.a * s2.x + H.b * s2.y + H.c = d2.x * (H.g * s2.x + H.h * s2.y + 1) ∧
     H.d * s2.x + H.e * s2.y + H.f = d2.y * (H.g * s2.x + H.h * s2.y + 1)) ∧
    (H.a * s3.x + H.b * s3.y + H.c = d3.x * (H.g * s3.x + H.h * s3.y + 1) ∧
     H.d * s3.x + H.e * s3.y + H.f = d3.y * (H.g * s3.x + H.h * s3.y + 1)) := by
  replace hch :
      (solve
        [[s0.x, s0.y, 1, 0, 0, 0, -(d0.x * s0.x), -(d0.x * s0.y)],
         [0, 0, 0, s0.x, s0.y, 1, -(d0.y * s0.x), -(d0.y * s0.y)],
         [s1.x, s1.y, 1, 0, 0, 0, -(d1.x * s1.x), -(d1.x * s1.y)],
         [0, 0, 0, s1.x, s1.y, 1, -(d1.y * s1.x), -(d1.y * s1.y)],
         [s2.x, s2.y, 1, 0, 0, 0, -(d2.x * s2.x), -(d2.x * s2.y)],
         [0, 0, 0, s2.x, s2.y, 1, -(d2.y * s2.x), -(d2.y * s2.y)],
         [s3.x, s3.y, 1, 0, 0, 0, -(d3.x * s3.x), -(d3.x * s3.y)],
         [0, 0, 0, s3.x, s3.y, 1, -(d3.y * s3.x), -(d3.y * s3.y)]]
        [d0.x, d0.y, d1.x, d1.y, d2.x, d2.y, d3.x, d3.y]).map
        (fun hl => (⟨hl.getD 0 0, hl.getD 1 0, hl.getD 2 0, hl.getD 3 0, hl.getD 4 0,
          hl.getD 5 0, hl.getD 6 0, hl.getD 7 0, 1⟩ : M3)) = some H := hch
  cases hsv : solve
      [[s0.x, s0.y, 1, 0, 0, 0, -(d0.x * s0.x), -(d0.x * s0.y)],
       [0, 0, 0, s0.x, s0.y, 1, -(d0.y * s0.x), -(d0.y * s0.y)],
       [s1.x, s1.y, 1, 0, 0, 0, -(d1.x * s1.x), -(d1.x * s1.y)],
       [0, 0, 0, s1.x, s1.y, 1, -(d1.y * s1.x), -(d1.y * s1.y)],
       [s2.x, s2.y, 1, 0, 0, 0, -(d2.x * s2.x), -(d2.x * s2.y)],
       [0, 0, 0, s2.x, s2.y, 1, -(d2.y * s2.x), -(d2.y * s2.y)],
       [s3.x, s3.y, 1, 0, 0, 0, -(d3.x * s3.x), -(d3.x * s3.y)],
       [0, 0, 0, s3.x, s3.y, 1, -(d3.y * s3.x), -(d3.y * s3.y)]]
      [d0.x, d0.y, d1.x, d1.y, d2.x, d2.y, d3.x, d3.y] with
  | none => rw [hsv] at hch; simp at hch
  | some hl =>
      rw [hsv] at hch
      simp only [Option.map_some'] at hch
      have hHeq := Option.some.inj hch
      cases hHeq
      have hlenA : ∀ r < ([d0.x, d0.y, d1.x, d1.y, d2.x, d2.y, d3.x, d3.y] : List ℚ).length,
          (([[s0.x, s0.y, 1, 0, 0, 0, -(d0.x * s0.x), -(d0.x * s0.y)],
            [0, 0, 0, s0.x, s0.y, 1, -(d0.y * s0.x), -(d0.y * s0.y)],
            [s1.x, s1.y, 1, 0, 0, 0, -(d1.x * s1.x), -(d1.x * s1.y)],
            [0, 0, 0, s1.x, s1.y, 1, -(d1.y * s1.x), -(d1.y * s1.y)],
            [s2.x, s2.y, 1, 0, 0, 0, -(d2.x * s2.x), -(d2.x * s2.y)],
            [0, 0, 0, s2.x, s2.y, 1, -(d2.y * s2.x), -(d2.y * s2.y)],
            [s3.x, s3.y, 1, 0, 0, 0, -(d3.x * s3.x), -(d3.x * s3.y)],
            [0, 0, 0, s3.x, s3.y, 1, -(d3.y * s3.x), -(d3.y * s3.y)]] : List (List ℚ)).getD r []).length
            = ([d0.x, d0.y, d1.x, d1.y, d2.x, d2.y, d3.x, d3.y] : List ℚ).length := by
        intro r hr
        simp only [List.length_cons, List.length_nil] at hr
        interval_cases r <;> rfl
      have hrows := solve_correct _ _ hl hlenA hsv
      have h0 := hrows 0 (by norm_num)
      have h1 := hrows 1 (by norm_num)
      have h2 := hrows 2 (by norm_num)
      have h3 := hrows 3 (by norm_num)
      have h4 := hrows 4 (by norm_num)
      have h5 := hrows 5 (by norm_num)
      have h6 := hrows 6 (by norm_num)
      have h7 := hrows 7 (by norm_num)
      norm_num [Finset.sum_range_succ, mget] at h0 h1 h2 h3 h4 h5 h6 h7
      simp only [List.getD_eq_getElem?_getD]
      refine ⟨trivial, ⟨?_, ?_⟩, ⟨?_, ?_⟩, ⟨?_, ?_⟩, ⟨?_, ?_⟩⟩
      · linear_combination h0
      · linear_combination h1
      · linear_combination h2
      · linear_combination h3
      · linear_combination h4
      · linear_combination h5
      · linear_combination h6
      · linear_combination h7

theorem adj3_app3 (m : M3) (v : ℚ × ℚ × ℚ) :
    app3 (adj3 m) (app3 m v) = (det3 m * v.1, det3 m * v.2.1, det3 m * v.2.2) := by
  obtain ⟨x, y, z⟩ := v
  simp only [app3, adj3, det3]
  refine Prod.ext ?_ (Prod.ext ?_ ?_) <;> ring

theorem invert3x3_inv (m mi : M3) (hinv : invert3x3 m = some mi) :
    det3 m ≠ 0 ∧ ∀ v, app3 mi (app3 m v) = v := by
  unfold invert3x3 at hinv
  split at hinv
  · simp at hinv
  · rename_i hdet
    have hd0 : det3 m ≠ 0 := by
      intro h0
      apply hdet
      rw [h0]
      norm_num [numEps]
    dsimp only at hinv
    have hmi := (Option.some.inj hinv).symm
    refine ⟨hd0, fun v => ?_⟩
    obtain ⟨x, y, z⟩ := v
    have hadj := adj3_app3 m (x, y, z)
    simp only [app3, adj3] at hadj
    have ha1 := congrArg (fun p : ℚ × ℚ × ℚ => p.1) hadj
    have ha2 := congrArg (fun p : ℚ × ℚ × ℚ => p.2.1) hadj
    have ha3 := congrArg (fun p : ℚ × ℚ × ℚ => p.2.2) hadj
    simp only at ha1 ha2 ha3
    rw [hmi]
    simp only [app3]
    refine Prod.ext ?_ (Prod.ext ?_ ?_)
    · show (m.e * m.k - m.f * m.h) * (1 / det3 m) * (m.a * x + m.b * y + m.c * z) +
        (m.c * m.h - m.b * m.k) * (1 / det3 m) * (m.d * x + m.e * y + m.f * z) +
        (m.b * m.f - m.c * m.e) * (1 / det3 m) * (m.g * x + m.h * y + m.k * z) = x
      field_simp
      linear_combination ha1
    · show (m.f * m.g - m.d * m.k) * (1 / det3 m) * (m.a * x + m.b * y + m.c * z) +
        (m.a * m.k - m.c * m.g) * (1 / det3 m) * (m.d * x + m.e * y + m.f * z) +
        (m.c * m.d - m.a * m.f) * (1 / det3 m) * (m.g * x + m.h * y + m.k * z) = y
      field_simp
      linear_combination ha2
    · show (m.d * m.h - m.e * m.g) * (1 / det3 m) * (m.a * x + m.b * y + m.c * z) +
        (m.b * m.g - m.a * m.h) * (1 / det3 m) * (m.d * x + m.e * y + m.f * z) +
        (m.a * m.e - m.b * m.d) * (1 / det3 m) * (m.g * x + m.h * y + m.k * z) = z
      field_simp
      linear_combination ha3

theorem roundtrip_point (H Hinv : M3) (hk : H.k = 1)
    (hinvp : ∀ v, app3 Hinv (app3 H v) = v) (s d : Point)
    (hx : H.a * s.x + H.b * s.y + H.c = d.x * (H.g * s.x + H.h * s.y + 1))
    (hy : H.d * s.x + H.e * s.y + H.f = d.y * (H.g * s.x + H.h * s.y + 1)) :
    mapPoint Hinv d = s := by
  set w := H.g * s.x + H.h * s.y + 1 with hwdef
  have happ : app3 H (s.x, s.y, 1) = (d.x * w, d.y * w, w) := by
    simp only [app3]
    refine Prod.ext ?_ (Prod.ext ?_ ?_)
    · simpa using hx
    · simpa using hy
    · simp only [hk, hwdef]; ring
  have hv := hinvp (s.x, s.y, 1)
  rw [happ] at hv
  have hlin : app3 Hinv (d.x * w, d.y * w, w) =
      (w * (Hinv.a * d.x + Hinv.b * d.y + Hinv.c),
       w * (Hinv.d * d.x + Hinv.e * d.y + Hinv.f),
       w * (Hinv.g * d.x + Hinv.h * d.y + Hinv.k)) := by
    simp only [app3]
    refine Prod.ext ?_ (Prod.ext ?_ ?_) <;> ring
  rw [hlin] at hv
  have h1 := congrArg (fun p : ℚ × ℚ × ℚ => p.1) hv
  have h2 := congrArg (fun p : ℚ × ℚ × ℚ => p.2.1) hv
  have h3 := congrArg (fun p : ℚ × ℚ × ℚ => p.2.2) hv
  simp only at h1 h2 h3
  have hwne : w ≠ 0 := by
    intro h0
    rw [h0] at h3
    simp at h3
  have hW2ne : Hinv.g * d.x + Hinv.h * d.y + Hinv.k ≠ 0 := by
    intro h0
    rw [h0] at h3
    simp at h3
  unfold mapPoint
  have hxcomp : (Hinv.a * d.x + Hinv.b * d.y + Hinv.c)
      / (Hinv.g * d.x + Hinv.h * d.y + Hinv.k) = s.x := by
    rw [div_eq_iff hW2ne]
    apply mul_left_cancel₀ hwne
    rw [h1]
    linear_combination (-s.x) * h3
  have hycomp : (Hinv.d * d.x + Hinv.e * d.y + Hinv.f)
      / (Hinv.g * d.x + Hinv.h * d.y + Hinv.k) = s.y := by
    rw [div_eq_iff hW2ne]
    apply mul_left_cancel₀ hwne
    rw [h2]
    linear_combination (-s.y) * h3
  rw [hxcomp, hycomp]

/-- C3: round-trip law — if `computeHomography` maps the source quad to the
destination rectangle `(0,0),(dw,0),(dw,dh),(0,dh)` and `invert3x3`
succeeds on the result, then pushing each destination rectangle corner
through the inverse homography reproduces the corresponding source quad
corner exactly (exact rational arithmetic; hence within any floating
tolerance). -/
theorem homography_roundtrip (s0 s1 s2 s3 : Point) (dw dh : ℚ) (H Hinv : M3)
    (hch : computeHomography [s0, s1, s2, s3]
      [⟨0, 0⟩, ⟨dw, 0⟩, ⟨dw, dh⟩, ⟨0, dh⟩] = some H)
    (hinv : invert3x3 H = some Hinv) :
    mapPoint Hinv ⟨0, 0⟩ = s0 ∧ mapPoint Hinv ⟨dw, 0⟩ = s1 ∧
    mapPoint Hinv ⟨dw, dh⟩ = s2 ∧ mapPoint Hinv ⟨0, dh⟩ = s3 := by
  obtain ⟨hk, he0, he1, he2, he3⟩ :=
    computeHomography_eqs s0 s1 s2 s3 ⟨0, 0⟩ ⟨dw, 0⟩ ⟨dw, dh⟩ ⟨0, dh⟩ H hch
  obtain ⟨-, hinvp⟩ := invert3x3_inv H Hinv hinv
  exact ⟨roundtrip_point H Hinv hk hinvp s0 ⟨0, 0⟩ he0.1 he0.2,
    roundtrip_point H Hinv hk hinvp s1 ⟨dw, 0⟩ he1.1 he1.2,
    roundtrip_point H Hinv hk hinvp s2 ⟨dw, dh⟩ he2.1 he2.2,
    roundtrip_point H Hinv hk hinvp s3 ⟨0, dh⟩ he3.1 he3.2⟩

/-- Witness for C3: the unit-like square `(0,0),(100,0),(100,100),(0,100)`
mapped onto the 100×100 rectangle gives the identity homography, which
inverts to itself, and the round-trip law holds at all four corners. -/
theorem homography_roundtrip_witness :
    mapPoint ⟨1, 0, 0, 0, 1, 0, 0, 0, 1⟩ ⟨0, 0⟩ = (⟨0, 0⟩ : Point) ∧
    mapPoint ⟨1, 0, 0, 0, 1, 0, 0, 0, 1⟩ ⟨100, 0⟩ = (⟨100, 0⟩ : Point) ∧
    mapPoint ⟨1, 0, 0, 0, 1, 0, 0, 0, 1⟩ ⟨100, 100⟩ = (⟨100, 100⟩ : Point) ∧
    mapPoint ⟨1, 0, 0, 0, 1, 0, 0, 0, 1⟩ ⟨0, 100⟩ = (⟨0, 100⟩ : Point) :=
  homography_roundtrip ⟨0, 0⟩ ⟨100, 0⟩ ⟨100, 100⟩ ⟨0, 100⟩ 100 100
    ⟨1, 0, 0, 0, 1, 0, 0, 0, 1⟩ ⟨1, 0, 0, 0, 1, 0, 0, 0, 1⟩ (by decide) (by decide)

theorem det3_eq_zero_of_kernel (m : M3) (x y : ℚ)
    (h : app3 m (x, y, 1) = (0, 0, 0)) : det3 m = 0 := by
  have hadj := adj3_app3 m (x, y, 1)
  rw [h] at hadj
  have h3 := congrArg (fun p : ℚ × ℚ × ℚ => p.2.2) hadj
  simp only [app3, adj3] at h3
  linear_combination -h3

theorem degenerate_core (H : M3) (hk1 : H.k = 1)
    (si sj sk di dj dk : Point)
    (hix : H.a * si.x + H.b * si.y + H.c = di.x * (H.g * si.x + H.h * si.y + 1))
    (hiy : H.d * si.x + H.e * si.y + H.f = di.y * (H.g * si.x + H.h * si.y + 1))
    (hjx : H.a * sj.x + H.b * sj.y + H.c = dj.x * (H.g * sj.x + H.h * sj.y + 1))
    (hjy : H.d * sj.x + H.e * sj.y + H.f = dj.y * (H.g * sj.x + H.h * sj.y + 1))
    (hkx : H.a * sk.x + H.b * sk.y + H.c = dk.x * (H.g * sk.x + H.h * sk.y + 1))
    (hky : H.d * sk.x + H.e * sk.y + H.f = dk.y * (H.g * sk.x + H.h * sk.y + 1))
    (hdij : di ≠ dj) (hdjk : dj ≠ dk)
    (hcross : (di.x - dk.x) * (dj.y - dk.y) - (dj.x - dk.x) * (di.y - dk.y) ≠ 0)
    (hcol : collinear3 si sj sk) :
    det3 H = 0 := by
  unfold collinear3 at hcol
  by_cases hss : si = sj
  · have hjx2 : H.a * si.x + H.b * si.y + H.c
        = dj.x * (H.g * si.x + H.h * si.y + 1) := by rw [hss]; exact hjx
    have hjy2 : H.d * si.x + H.e * si.y + H.f
        = dj.y * (H.g * si.x + H.h * si.y + 1) := by rw [hss]; exact hjy
    have hW1 : (di.x - dj.x) * (H.g * si.x + H.h * si.y + 1) = 0 := by
      linear_combination hjx2 - hix
    have hW2 : (di.y - dj.y) * (H.g * si.x + H.h * si.y + 1) = 0 := by
      linear_combination hjy2 - hiy
    have hne : di.x ≠ dj.x ∨ di.y ≠ dj.y := by
      by_contra hcon
      push_neg at hcon
      exact hdij (by cases di; cases dj; simp_all)
    have hW : H.g * si.x + H.h * si.y + 1 = 0 := by
      rcases hne with h | h
      · rcases mul_eq_zero.mp hW1 with h0 | h0
        · exact absurd (by linarith : di.x = dj.x) h
        · exact h0
      · rcases mul_eq_zero.mp hW2 with h0 | h0
        · exact absurd (by linarith : di.y = dj.y) h
        · exact h0
    apply det3_eq_zero_of_kernel H si.x si.y
    simp only [app3]
    refine Prod.ext ?_ (Prod.ext ?_ ?_)
    · simp only
      linear_combination hix + di.x * hW
    · simp only
      linear_combination hiy + di.y * hW
    · simp only [hk1]
      linear_combination hW
  · have hex : ∃ t : ℚ, sk.x - si.x = t * (sj.x - si.x)
        ∧ sk.y - si.y = t * (sj.y - si.y) := by
      by_cases hxx : si.x = sj.x
      · have hyy : si.y ≠ sj.y := by
          intro hy
          exact hss (by cases si; cases sj; simp_all)
        have hsub : sj.y - si.y ≠ 0 := fun h => hyy (by linarith)
        have hd : sj.x - si.x = 0 := by linarith
        refine ⟨(sk.y - si.y) / (sj.y - si.y), ?_, ?_⟩
        · have hx0 : (sk.x - si.x) * (sj.y - si.y) = 0 := by
            linear_combination (-1) * hcol + (sk.y - si.y) * hd
          rcases mul_eq_zero.mp hx0 with h | h
          · rw [h, hd]
            ring
          · exact absurd h hsub
        · field_simp
      · have hsub : sj.x - si.x ≠ 0 := fun h => hxx (by linarith)
        refine ⟨(sk.x - si.x) / (sj.x - si.x), ?_, ?_⟩
        · field_simp
        · rw [div_mul_eq_mul_div, eq_div_iff hsub]
          linear_combination hcol
    obtain ⟨t, ht1, ht2⟩ := hex
    have e3 : (1 - t) * (H.g * si.x + H.h * si.y + 1)
        + t * (H.g * sj.x + H.h * sj.y + 1)
        = H.g * sk.x + H.h * sk.y + 1 := by
      linear_combination (-H.g) * ht1 + (-H.h) * ht2
    have e1 : (1 - t) * (H.g * si.x + H.h * si.y + 1) * di.x
        + t * (H.g * sj.x + H.h * sj.y + 1) * dj.x
        = (H.g * sk.x + H.h * sk.y + 1) * dk.x := by
      linear_combination (-H.a) * ht1 + (-H.b) * ht2 - (1 - t) * hix - t * hjx + hkx
    have e2 : (1 - t) * (H.g * si.x + H.h * si.y + 1) * di.y
        + t * (H.g * sj.x + H.h * sj.y + 1) * dj.y
        = (H.g * sk.x + H.h * sk.y + 1) * dk.y := by
      linear_combination (-H.d) * ht1 + (-H.e) * ht2 - (1 - t) * hiy - t * hjy + hky
    have f1 : ((1 - t) * (H.g * si.x + H.h * si.y + 1)) * (di.x - dk.x)
        + (t * (H.g * sj.x + H.h * sj.y + 1)) * (dj.x - dk.x) = 0 := by
      linear_combination e1 - dk.x * e3
    have f2 : ((1 - t) * (H.g * si.x + H.h * si.y + 1)) * (di.y - dk.y)
        + (t * (H.g * sj.x + H.h * sj.y + 1)) * (dj.y - dk.y) = 0 := by
      linear_combination e2 - dk.y * e3
    have hu : ((1 - t) * (H.g * si.x + H.h * si.y + 1))
        * ((di.x - dk.x) * (dj.y - dk.y) - (dj.x - dk.x) * (di.y - dk.y)) = 0 := by
      linear_combination (dj.y - dk.y) * f1 - (dj.x - dk.x) * f2
    have hu0 : (1 - t) * (H.g * si.x + H.h * si.y + 1) = 0 := by
      rcases mul_eq_zero.mp hu with h | h
      · exact h
      · exact absurd h hcross
    have hv1 : (t * (H.g * sj.x + H.h * sj.y + 1)) * (dj.x - dk.x) = 0 := by
      linear_combination f1 - (di.x - dk.x) * hu0
    have hv2 : (t * (H.g * sj.x + H.h * sj.y + 1)) * (dj.y - dk.y) = 0 := by
      linear_combination f2 - (di.y - dk.y) * hu0
    have hnejk : dj.x ≠ dk.x ∨ dj.y ≠ dk.y := by
      by_contra hcon
      push_neg at hcon
      exact hdjk (by cases dj; cases dk; simp_all)
    have hv0 : t * (H.g * sj.x + H.h * sj.y + 1) = 0 := by
      rcases hnejk with h | h
      · rcases mul_eq_zero.mp hv1 with h0 | h0
        · exact h0
        · exact absurd (by linarith : dj.x = dk.x) h
      · rcases mul_eq_zero.mp hv2 with h0 | h0
        · exact h0
        · exact absurd (by linarith : dj.y = dk.y) h
    have hWk0 : H.g * sk.x + H.h * sk.y + 1 = 0 := by
      linear_combination hu0 + hv0 - e3
    apply det3_eq_zero_of_kernel H sk.x sk.y
    simp only [app3]
    refine Prod.ext ?_ (Prod.ext ?_ ?_)
    · simp only
      linear_combination hkx + dk.x * hWk0
    · simp only
      linear_combination hky + dk.y * hWk0
    · simp only [hk1]
      linear_combination hWk0

theorem collinear3_scale (p q r : Point) (a b : ℚ) (h : collinear3 p q r) :
    collinear3 ⟨p.x * a, p.y * b⟩ ⟨q.x * a, q.y * b⟩ ⟨r.x * a, r.y * b⟩ := by
  unfold collinear3 at h ⊢
  simp only
  linear_combination (a * b) * h

theorem rectify_collinear_error (s0 s1 s2 s3 : Point) (dw dh : ℤ)
    (hdw : 100 ≤ dw) (hdh : 100 ≤ dh)
    (hdeg : collinear3 s0 s1 s2 ∨ collinear3 s0 s1 s3 ∨
            collinear3 s0 s2 s3 ∨ collinear3 s1 s2 s3) :
    computeHomography [s0, s1, s2, s3]
        [⟨0, 0⟩, ⟨(dw : ℚ), 0⟩, ⟨(dw : ℚ), (dh : ℚ)⟩, ⟨0, (dh : ℚ)⟩] = none ∨
    ∃ H, computeHomography [s0, s1, s2, s3]
        [⟨0, 0⟩, ⟨(dw : ℚ), 0⟩, ⟨(dw : ℚ), (dh : ℚ)⟩, ⟨0, (dh : ℚ)⟩] = some H ∧
      invert3x3 H = none := by
  cases hch : computeHomography [s0, s1, s2, s3]
      [⟨0, 0⟩, ⟨(dw : ℚ), 0⟩, ⟨(dw : ℚ), (dh : ℚ)⟩, ⟨0, (dh : ℚ)⟩] with
  | none => exact Or.inl rfl
  | some H =>
      right
      refine ⟨H, rfl, ?_⟩
      obtain ⟨hk1, he0, he1, he2, he3⟩ :=
        computeHomography_eqs s0 s1 s2 s3 ⟨0, 0⟩ ⟨(dw : ℚ), 0⟩ ⟨(dw : ℚ), (dh : ℚ)⟩
          ⟨0, (dh : ℚ)⟩ H hch
      have hdwq : (0 : ℚ) < (dw : ℚ) := by
        have : (100 : ℚ) ≤ (dw : ℚ) := by exact_mod_cast hdw
        linarith
      have hdhq : (0 : ℚ) < (dh : ℚ) := by
        have : (100 : ℚ) ≤ (dh : ℚ) := by exact_mod_cast hdh
        linarith
      have hne01 : (⟨0, 0⟩ : Point) ≠ ⟨(dw : ℚ), 0⟩ := by
        intro hc
        rw [Point.mk.injEq] at hc
        linarith [hc.1]
      have hne02 : (⟨0, 0⟩ : Point) ≠ ⟨(dw : ℚ), (dh : ℚ)⟩ := by
        intro hc
        rw [Point.mk.injEq] at hc
        linarith [hc.1]
      have hne12 : (⟨(dw : ℚ), 0⟩ : Point) ≠ ⟨(dw : ℚ), (dh : ℚ)⟩ := by
        intro hc
        rw [Point.mk.injEq] at hc
        linarith [hc.2]
      have hne13 : (⟨(dw : ℚ), 0⟩ : Point) ≠ ⟨0, (dh : ℚ)⟩ := by
        intro hc
        rw [Point.mk.injEq] at hc
        linarith [hc.1]
      have hne23 : (⟨(dw : ℚ), (dh : ℚ)⟩ : Point) ≠ ⟨0, (dh : ℚ)⟩ := by
        intro hc
        rw [Point.mk.injEq] at hc
        linarith [hc.1]
      have hdet : det3 H = 0 := by
        rcases hdeg with h | h | h | h
        · refine degenerate_core H hk1 s0 s1 s2 ⟨0, 0⟩ ⟨(dw : ℚ), 0⟩ ⟨(dw : ℚ), (dh : ℚ)⟩
            he0.1 he0.2 he1.1 he1.2 he2.1 he2.2 hne01 hne12 ?_ h
          simp only
          intro hc
          nlinarith [mul_pos hdwq hdhq]
        · refine degenerate_core H hk1 s0 s1 s3 ⟨0, 0⟩ ⟨(dw : ℚ), 0⟩ ⟨0, (dh : ℚ)⟩
            he0.1 he0.2 he1.1 he1.2 he3.1 he3.2 hne01 hne13 ?_ h
          simp only
          intro hc
          nlinarith [mul_pos hdwq hdhq]
        · refine degenerate_core H hk1 s0 s2 s3 ⟨0, 0⟩ ⟨(dw : ℚ), (dh : ℚ)⟩ ⟨0, (dh : ℚ)⟩
            he0.1 he0.2 he2.1 he2.2 he3.1 he3.2 hne02 hne23 ?_ h
          simp only
          intro hc
          nlinarith [mul_pos hdwq hdhq]
        · refine degenerate_core H hk1 s1 s2 s3 ⟨(dw : ℚ), 0⟩ ⟨(dw : ℚ), (dh : ℚ)⟩ ⟨0, (dh : ℚ)⟩
            he1.1 he1.2 he2.1 he2.2 he3.1 he3.2 hne12 hne23 ?_ h
          simp only
          intro hc
          nlinarith [mul_pos hdwq hdhq]
      unfold invert3x3
      rw [hdet]
      rw [if_pos (by norm_num [numEps])]

/-- C4: for every image and every quad three of whose four corners are
collinear, `processImage` (the rectify operation) fails with an explicit
error — the homography computation or its inversion returns `none` (a
Gaussian-elimination pivot, resp. the 3×3 determinant, falls below `1e-10`
in magnitude) — and never returns a warped image.  Holds for every choice
of the `sqrtA`/`enh` parameters, image size, pixel data and mode. -/
theorem processImage_collinear_fails (sqrtA : ℚ → ℚ)
    (enh : EnhanceMode → (ℕ → ℚ) → ℕ → ℕ → (ℕ → ℚ))
    (sw sh : ℕ) (srcData : ℕ → ℚ) (corners : Quad) (mode : EnhanceMode)
    (hdeg : collinear3 corners.tl corners.tr corners.br ∨
            collinear3 corners.tl corners.tr corners.bl ∨
            collinear3 corners.tl corners.br corners.bl ∨
            collinear3 corners.tr corners.br corners.bl) :
    ∃ msg, processImage sqrtA enh sw sh srcData corners mode = Except.error msg := by
  unfold processImage
  dsimp only
  have hdegS :
      collinear3 ⟨corners.tl.x * sw, corners.tl.y * sh⟩
        ⟨corners.tr.x * sw, corners.tr.y * sh⟩ ⟨corners.br.x * sw, corners.br.y * sh⟩ ∨
      collinear3 ⟨corners.tl.x * sw, corners.tl.y * sh⟩
        ⟨corners.tr.x * sw, corners.tr.y * sh⟩ ⟨corners.bl.x * sw, corners.bl.y * sh⟩ ∨
      collinear3 ⟨corners.tl.x * sw, corners.tl.y * sh⟩
        ⟨corners.br.x * sw, corners.br.y * sh⟩ ⟨corners.bl.x * sw, corners.bl.y * sh⟩ ∨
      collinear3 ⟨corners.tr.x * sw, corners.tr.y * sh⟩
        ⟨corners.br.x * sw, corners.br.y * sh⟩ ⟨corners.bl.x * sw, corners.bl.y * sh⟩ := by
    rcases hdeg with h | h | h | h
    · exact Or.inl (collinear3_scale _ _ _ _ _ h)
    · exact Or.inr (Or.inl (collinear3_scale _ _ _ _ _ h))
    · exact Or.inr (Or.inr (Or.inl (collinear3_scale _ _ _ _ _ h)))
    · exact Or.inr (Or.inr (Or.inr (collinear3_scale _ _ _ _ _ h)))
  have hmain := rectify_collinear_error
    ⟨corners.tl.x * sw, corners.tl.y * sh⟩ ⟨corners.tr.x * sw, corners.tr.y * sh⟩
    ⟨corners.br.x * sw, corners.br.y * sh⟩ ⟨corners.bl.x * sw, corners.bl.y * sh⟩
    (max (jsRound (max (sqrtA (dist2 ⟨corners.tl.x * sw, corners.tl.y * sh⟩
        ⟨corners.tr.x * sw, corners.tr.y * sh⟩))
      (sqrtA (dist2 ⟨corners.bl.x * sw, corners.bl.y * sh⟩
        ⟨corners.br.x * sw, corners.br.y * sh⟩)))) 100)
    (max (jsRound (max (sqrtA (dist2 ⟨corners.tl.x * sw, corners.tl.y * sh⟩
        ⟨corners.bl.x * sw, corners.bl.y * sh⟩))
      (sqrtA (dist2 ⟨corners.tr.x * sw, corners.tr.y * sh⟩
        ⟨corners.br.x * sw, corners.br.y * sh⟩)))) 100)
    (le_max_right _ _) (le_max_right _ _) hdegS
  rcases hmain with hnone | ⟨H, hsome, hinv⟩
  · refine ⟨"Failed to compute homography", ?_⟩
    rw [hnone]
  · refine ⟨"Failed to invert homography", ?_⟩
    rw [hsome]
    dsimp only
    rw [hinv]

/-- Witness for C4: the quad whose four corners all sit at the origin has
three collinear corners, and `processImage` on a 1×1 image fails with an
explicit error. -/
theorem processImage_collinear_fails_witness :
    ∃ msg, processImage (fun _ => 0) (fun _ bufr _ _ => bufr) 1 1 (fun _ => 0)
      ⟨⟨0, 0⟩, ⟨0, 0⟩, ⟨0, 0⟩, ⟨0, 0⟩⟩ EnhanceMode.bw = Except.error msg :=
  processImage_collinear_fails (fun _ => 0) (fun _ bufr _ _ => bufr) 1 1 (fun _ => 0)
    ⟨⟨0, 0⟩, ⟨0, 0⟩, ⟨0, 0⟩, ⟨0, 0⟩⟩ EnhanceMode.bw (Or.inl (by decide))

theorem warpPixelTrace_eq_range (dw dh : ℕ) :
    warpPixelTrace dw dh = List.range (dh * dw) := by
  induction dh with
  | zero => simp [warpPixelTrace]
  | succ dh ih =>
      unfold warpPixelTrace at ih ⊢
      rw [List.range_succ, List.flatMap_append, ih]
      simp only [List.flatMap_cons, List.flatMap_nil, List.append_nil]
      rw [Nat.succ_mul, List.range_add]

theorem pixelId_inj (dw dy dx dy2 dx2 : ℕ) (h1 : dx < dw) (h2 : dx2 < dw)
    (he : dy2 * dw + dx2 = dy * dw + dx) : dy2 = dy ∧ dx2 = dx := by
  have hdy : dy2 = dy := by
    rcases Nat.lt_trichotomy dy2 dy with h | h | h
    · exfalso
      have hlt : dy2 * dw + dx2 < dy * dw := by
        calc dy2 * dw + dx2 < dy2 * dw + dw := by omega
          _ = (dy2 + 1) * dw := by ring
          _ ≤ dy * dw := Nat.mul_le_mul_right dw (by omega)
      omega
    · exact h
    · exfalso
      have hlt : dy * dw + dx < dy2 * dw := by
        calc dy * dw + dx < dy * dw + dw := by omega
          _ = (dy + 1) * dw := by ring
          _ ≤ dy2 * dw := Nat.mul_le_mul_right dw (by omega)
      omega
  subst hdy
  omega

theorem fold_update_not_mem (ws : List (ℕ × ℚ)) (f : ℕ → ℚ) (key : ℕ)
    (h : ∀ kv ∈ ws, kv.1 ≠ key) :
    ws.foldl (fun g kv => Function.update g kv.1 kv.2) f key = f key := by
  induction ws generalizing f with
  | nil => rfl
  | cons kv t ih =>
      simp only [List.foldl_cons]
      rw [ih _ (fun kv2 h2 => h kv2 (List.mem_cons_of_mem kv h2))]
      exact Function.update_noteq (Ne.symm (h kv (List.mem_cons_self kv t))) kv.2 f

theorem fold_update_const (ws : List (ℕ × ℚ)) (f : ℕ → ℚ) (key : ℕ) (v : ℚ)
    (hex : ∃ kv ∈ ws, kv.1 = key)
    (hval : ∀ kv ∈ ws, kv.1 = key → kv.2 = v) :
    ws.foldl (fun g kv => Function.update g kv.1 kv.2) f key = v := by
  induction ws generalizing f with
  | nil =>
      obtain ⟨kv, hmem, _⟩ := hex
      simp at hmem
  | cons kv t ih =>
      simp only [List.foldl_cons]
      by_cases hmem : ∃ kv2 ∈ t, kv2.1 = key
      · exact ih _ hmem (fun kv2 h2 hk => hval kv2 (List.mem_cons_of_mem kv h2) hk)
      · obtain ⟨kv3, hmem3, hk3⟩ := hex
        rcases List.mem_cons.mp hmem3 with heq | hmem3t
        · rw [fold_update_not_mem t _ key (fun kv2 h2 hk => hmem ⟨kv2, h2, hk⟩)]
          rw [← heq, ← hk3, Function.update_same]
          exact hval kv3 hmem3 hk3
        · exact absurd ⟨kv3, hmem3t, hk3⟩ hmem

theorem warpWrites_blocks (srcData : ℕ → ℚ) (sw sh : ℕ) (Hinv : M3)
    (dw dh dx dy : ℕ) (hdx : dx < dw) (hdy : dy < dh)
    (hnb : ¬ warpInBounds Hinv sw sh dx dy) :
    ∀ kv ∈ warpWrites srcData sw sh Hinv dw dh,
      ∃ dy2 dx2 o2 : ℕ, dx2 < dw ∧ o2 < 4 ∧ kv.1 = (dy2 * dw + dx2) * 4 + o2 ∧
        ((dy2 = dy ∧ dx2 = dx) → kv.1 = (dy * dw + dx) * 4 + 3 ∧ kv.2 = 255) := by
  intro kv hkv
  rw [warpWrites, List.mem_flatMap] at hkv
  obtain ⟨dy2, hdy2, hkv⟩ := hkv
  rw [List.mem_flatMap] at hkv
  obtain ⟨dx2, hdx2, hkv⟩ := hkv
  rw [List.mem_range] at hdy2 hdx2
  refine ⟨dy2, dx2, ?_⟩
  by_cases hc : warpInBounds Hinv sw sh dx2 dy2
  · rw [if_pos hc] at hkv
    have hnotours : ¬ (dy2 = dy ∧ dx2 = dx) := by
      rintro ⟨rfl, rfl⟩
      exact hnb hc
    simp only [List.mem_cons, List.not_mem_nil, or_false] at hkv
    rcases hkv with rfl | rfl | rfl | rfl
    · exact ⟨0, hdx2, by omega, by simp, fun hp => absurd hp hnotours⟩
    · exact ⟨1, hdx2, by omega, by simp, fun hp => absurd hp hnotours⟩
    · exact ⟨2, hdx2, by omega, by simp, fun hp => absurd hp hnotours⟩
    · exact ⟨3, hdx2, by omega, by simp, fun hp => absurd hp hnotours⟩
  · rw [if_neg hc] at hkv
    simp only [List.mem_cons, List.not_mem_nil, or_false] at hkv
    subst hkv
    exact ⟨3, hdx2, by omega, by simp, fun hp => by
      obtain ⟨rfl, rfl⟩ := hp
      exact ⟨rfl, rfl⟩⟩

/-- C5: in `warp`, every destination pixel is visited exactly once by the
double loop (unconditionally), and a destination pixel whose inverse-mapped
source coordinate falls outside the source bounds ends up black with full
opacity — RGB `(0,0,0)` (never written, keeping the zero initialization)
and alpha `255`. -/
theorem warp_once_and_black (srcData : ℕ → ℚ) (sw sh : ℕ) (Hinv : M3)
    (dw dh dx dy : ℕ) (hdx : dx < dw) (hdy : dy < dh) :
    (warpPixelTrace dw dh).count (dy * dw + dx) = 1 ∧
    (¬ warpInBounds Hinv sw sh dx dy →
      warp srcData sw sh Hinv dw dh ((dy * dw + dx) * 4) = 0 ∧
      warp srcData sw sh Hinv dw dh ((dy * dw + dx) * 4 + 1) = 0 ∧
      warp srcData sw sh Hinv dw dh ((dy * dw + dx) * 4 + 2) = 0 ∧
      warp srcData sw sh Hinv dw dh ((dy * dw + dx) * 4 + 3) = 255) := by
  constructor
  · rw [warpPixelTrace_eq_range]
    apply List.count_eq_one_of_mem (List.nodup_range _)
    rw [List.mem_range]
    have h1 : dy * dw + dx < (dy + 1) * dw := by
      rw [add_mul, one_mul]
      omega
    have h2 : (dy + 1) * dw ≤ dh * dw := Nat.mul_le_mul_right dw (by omega)
    omega
  · intro hnb
    have hblocks := warpWrites_blocks srcData sw sh Hinv dw dh dx dy hdx hdy hnb
    have hrgb : ∀ off : ℕ, off < 3 →
        warp srcData sw sh Hinv dw dh ((dy * dw + dx) * 4 + off) = 0 := by
      intro off hoff
      unfold warp runWrites
      apply fold_update_not_mem
      intro kv hkv heq
      obtain ⟨dy2, dx2, o2, hdx2, ho2, hk2, hours⟩ := hblocks kv hkv
      by_cases hp : dy2 = dy ∧ dx2 = dx
      · have := (hours hp).1
        omega
      · rw [hk2] at heq
        have hpid : dy2 * dw + dx2 = dy * dw + dx := by omega
        exact hp (pixelId_inj dw dy dx dy2 dx2 hdx hdx2 hpid)
    refine ⟨?_, ?_, ?_, ?_⟩
    · simpa using hrgb 0 (by omega)
    · exact hrgb 1 (by omega)
    · exact hrgb 2 (by omega)
    · unfold warp runWrites
      apply fold_update_const
      · refine ⟨((dy * dw + dx) * 4 + 3, 255), ?_, rfl⟩
        rw [warpWrites, List.mem_flatMap]
        refine ⟨dy, by rw [List.mem_range]; exact hdy, ?_⟩
        rw [List.mem_flatMap]
        refine ⟨dx, by rw [List.mem_range]; exact hdx, ?_⟩
        rw [if_neg hnb]
        simp
      · intro kv hkv heq
        obtain ⟨dy2, dx2, o2, hdx2, ho2, hk2, hours⟩ := hblocks kv hkv
        by_cases hp : dy2 = dy ∧ dx2 = dx
        · exact (hours hp).2
        · rw [hk2] at heq
          have hpid : dy2 * dw + dx2 = dy * dw + dx := by omega
          exact absurd (pixelId_inj dw dy dx dy2 dx2 hdx hdx2 hpid) hp

/-- Witness for C5: a 1×1 destination with a 0×0 source — the single
destination pixel (0,0) is visited exactly once, maps out of bounds, and
comes out black opaque (the out-of-bounds premise also discharged
concretely). -/
theorem warp_once_and_black_witness :
    (warpPixelTrace 1 1).count (0 * 1 + 0) = 1 ∧
    warp (fun _ => 0) 0 0 ⟨0, 0, 0, 0, 0, 0, 0, 0, 1⟩ 1 1 ((0 * 1 + 0) * 4) = 0 ∧
    warp (fun _ => 0) 0 0 ⟨0, 0, 0, 0, 0, 0, 0, 0, 1⟩ 1 1 ((0 * 1 + 0) * 4 + 1) = 0 ∧
    warp (fun _ => 0) 0 0 ⟨0, 0, 0, 0, 0, 0, 0, 0, 1⟩ 1 1 ((0 * 1 + 0) * 4 + 2) = 0 ∧
    warp (fun _ => 0) 0 0 ⟨0, 0, 0, 0, 0, 0, 0, 0, 1⟩ 1 1 ((0 * 1 + 0) * 4 + 3) = 255 :=
  have h := warp_once_and_black (fun _ => 0) 0 0 ⟨0, 0, 0, 0, 0, 0, 0, 0, 1⟩ 1 1 0 0
    (by decide) (by decide)
  have hb := h.2 (by decide)
  ⟨h.1, hb.1, hb.2.1, hb.2.2.1, hb.2.2.2⟩

/-- Witness for `findBestQuad_guarantee`: the concrete Hough-line set
`cexLines` on a 100×100 image. -/
theorem findBestQuad_guarantee_witness :
    ∃ tl tr br bl : Point,
      houghBoundsOk 100 100 tl ∧ houghBoundsOk 100 100 tr ∧
      houghBoundsOk 100 100 br ∧ houghBoundsOk 100 100 bl ∧
      houghQuadArea tl tr br bl ≥ 1 / 10 * 100 * 100 ∧
      (⟨⟨0, 1/2⟩, ⟨1, 1/2⟩, ⟨1, 59/100⟩, ⟨0, 59/100⟩⟩ : Quad) =
        ⟨normPoint 100 100 tl, normPoint 100 100 tr,
         normPoint 100 100 br, normPoint 100 100 bl⟩ :=
  findBestQuad_guarantee cexLines 100 100
    ⟨⟨0, 1/2⟩, ⟨1, 1/2⟩, ⟨1, 59/100⟩, ⟨0, 59/100⟩⟩ (by decide)

/-- C2: `detectDocument` on a decoded image tries the four strategies in the
fixed priority order gradient-direction RANSAC, brightness segmentation,
edge-contour, Hough-line; a later strategy runs only when every earlier one
returned `none`; the result is the first `some`, and `none` when all four
fail (`firstSome` of the ordered result list). -/
theorem detectDocument_cascade_order {Gray EdgeMap Lines : Type}
    (s1 s2 : Gray → Option Quad) (canny : Gray → EdgeMap)
    (s3 : EdgeMap → Option Quad) (hough : EdgeMap → Lines)
    (s4 : Lines → Option Quad) (g : Gray) :
    detectDocument (some g) s1 s2 canny s3 hough s4 =
      firstSome [s1 g, s2 g, s3 (canny g), s4 (hough (canny g))] := by
  show detectCascade s1 s2 canny s3 hough s4 g = _
  unfold detectCascade
  dsimp only
  cases s1 g <;> cases s2 g <;> cases s3 (canny g) <;>
    cases s4 (hough (canny g)) <;> simp [firstSome]

/-- On a buffer that is constant `v` over the image, every row prefix sum of
`adaptiveThreshold` is `(x+1)·v`. -/
theorem rowSum_const (gray : ℕ → ℚ) (w h : ℕ) (v : ℚ)
    (hg : ∀ i < w * h, gray i = v) (y x : ℕ) (hy : y < h) (hx : x < w) :
    rowSum gray w y x = ((x : ℚ) + 1) * v := by
  unfold rowSum
  have hall : ∀ t ∈ Finset.range (x + 1), gray (y * w + t) = v := by
    intro t ht
    apply hg
    have htx : t ≤ x := Nat.lt_succ_iff.mp (Finset.mem_range.mp ht)
    have hyw : (y + 1) * w ≤ h * w := Nat.mul_le_mul_right w (Nat.succ_le_of_lt hy)
    have hsm : (y + 1) * w = y * w + w := Nat.succ_mul y w
    have hcomm : h * w = w * h := Nat.mul_comm h w
    omega
  rw [Finset.sum_congr rfl hall, Finset.sum_const, Finset.card_range, nsmul_eq_mul]
  push_cast
  ring

/-- On a buffer that is constant `v` over the image, the summed-area table
holds `v·y·x` at every in-range entry. -/
theorem integralTbl_const (gray : ℕ → ℚ) (w h : ℕ) (v : ℚ)
    (hg : ∀ i < w * h, gray i = v) :
    ∀ y x : ℕ, y ≤ h → x ≤ w → integralTbl gray w y x = v * y * x := by
  intro y
  induction y with
  | zero => intro x _ _; simp [integralTbl]
  | succ n ih =>
    intro x hy hx
    cases x with
    | zero => simp [integralTbl]
    | succ m =>
      simp only [integralTbl]
      rw [ih (m + 1) (Nat.le_of_succ_le hy) hx,
        rowSum_const gray w h v hg n m (Nat.lt_of_succ_le hy) (Nat.lt_of_succ_le hx)]
      push_cast
      ring

/-- On a buffer that is constant `v` over the image, `adaptiveThreshold`
with a positive offset outputs 255 at every pixel: the windowed mean is
exactly `v`, so `v < v − C` never fires. -/
theorem adaptiveThreshold_const (gray : ℕ → ℚ) (w h bs : ℕ) (C v : ℚ)
    (hw : 0 < w) (hh : 0 < h) (hg : ∀ i < w * h, gray i = v) (hC : 0 < C)
    (i : ℕ) (hi : i < w * h) :
    adaptiveThreshold gray w h bs C i = 255 := by
  unfold adaptiveThreshold
  dsimp only
  set x := i % w with hxdef
  set y := i / w with hydef
  set half := bs / 2 with hhalfdef
  set x1 := x - half with hx1def
  set y1 := y - half with hy1def
  set x2 := min (w - 1) (x + half) with hx2def
  set y2 := min (h - 1) (y + half) with hy2def
  have hx : x < w := by rw [hxdef]; exact Nat.mod_lt i hw
  have hy : y < h := by
    rw [hydef]
    exact (Nat.div_lt_iff_lt_mul hw).mpr (by rw [Nat.mul_comm]; exact hi)
  have hxx2 : x ≤ x2 := by
    rw [hx2def]; exact le_min (by omega) (Nat.le_add_right x half)
  have hyy2 : y ≤ y2 := by
    rw [hy2def]; exact le_min (by omega) (Nat.le_add_right y half)
  have hx12 : x1 ≤ x2 := le_trans (by rw [hx1def]; exact Nat.sub_le x half) hxx2
  have hy12 : y1 ≤ y2 := le_trans (by rw [hy1def]; exact Nat.sub_le y half) hyy2
  have hx2w : x2 + 1 ≤ w := by
    rw [hx2def]; have := Nat.min_le_left (w - 1) (x + half); omega
  have hy2h : y2 + 1 ≤ h := by
    rw [hy2def]; have := Nat.min_le_left (h - 1) (y + half); omega
  have hx1w : x1 ≤ w := le_trans hx12 (by omega)
  have hy1h : y1 ≤ h := le_trans hy12 (by omega)
  have harea : (((x2 - x1 + 1) * (y2 - y1 + 1) : ℕ) : ℚ) =
      ((x2 : ℚ) - x1 + 1) * ((y2 : ℚ) - y1 + 1) := by
    rw [Nat.cast_mul, Nat.cast_add, Nat.cast_add, Nat.cast_sub hx12,
      Nat.cast_sub hy12, Nat.cast_one]
  have f1 : (0 : ℚ) < (x2 : ℚ) - x1 + 1 := by
    have : ((x1 : ℚ)) ≤ ((x2 : ℚ)) := Nat.cast_le.mpr hx12; linarith
  have f2 : (0 : ℚ) < (y2 : ℚ) - y1 + 1 := by
    have : ((y1 : ℚ)) ≤ ((y2 : ℚ)) := Nat.cast_le.mpr hy12; linarith
  split
  · rename_i hlt
    exfalso
    rw [integralTbl_const gray w h v hg (y2 + 1) (x2 + 1) hy2h hx2w,
      integralTbl_const gray w h v hg y1 (x2 + 1) hy1h hx2w,
      integralTbl_const gray w h v hg (y2 + 1) x1 hy2h hx1w,
      integralTbl_const gray w h v hg y1 x1 hy1h hx1w,
      hg i hi, harea] at hlt
    have hA : (0 : ℚ) < ((x2 : ℚ) - x1 + 1) * ((y2 : ℚ) - y1 + 1) := mul_pos f1 f2
    have h2 : v + C < (v * ↑(y2 + 1) * ↑(x2 + 1) - v * ↑y1 * ↑(x2 + 1)
        - v * ↑(y2 + 1) * ↑x1 + v * ↑y1 * ↑x1) /
        (((x2 : ℚ) - x1 + 1) * ((y2 : ℚ) - y1 + 1)) := by linarith
    rw [lt_div_iff hA] at h2
    push_cast at h2
    nlinarith [mul_pos hC hA]
  · rfl

/-- C8: `enhanceBW` applied to a uniform image (all pixels the same RGB
triple, mid-gray included) yields a buffer where every color channel of
every pixel is pure white, 255 — in particular all-white or all-black
depending on the offset sign (the source offset `C = 10` is positive, so
the white branch holds), never a mixed pattern. -/
theorem enhanceBW_uniform (w h : ℕ) (data : ℕ → ℚ) (r g b : ℚ)
    (hw : 0 < w) (hh : 0 < h)
    (huni : ∀ i < w * h,
      data (i * 4) = r ∧ data (i * 4 + 1) = g ∧ data (i * 4 + 2) = b) :
    (∀ i < w * h, enhanceBW data w h (i * 4) = 255 ∧
      enhanceBW data w h (i * 4 + 1) = 255 ∧ enhanceBW data w h (i * 4 + 2) = 255) ∨
    (∀ i < w * h, enhanceBW data w h (i * 4) = 0 ∧
      enhanceBW data w h (i * 4 + 1) = 0 ∧ enhanceBW data w h (i * 4 + 2) = 0) := by
  left
  intro i hi
  have hgray : ∀ j < w * h, toGray data w h j =
      299 / 1000 * r + 587 / 1000 * g + 114 / 1000 * b := by
    intro j hj
    obtain ⟨h1, h2, h3⟩ := huni j hj
    unfold toGray
    rw [h1, h2, h3]
  have hat : ∀ c < 3, enhanceBW data w h (i * 4 + c) = 255 := by
    intro c hc
    unfold enhanceBW
    have hdiv : (i * 4 + c) / 4 = i := by omega
    have hmod : (i * 4 + c) % 4 = c := by omega
    rw [hdiv, hmod, if_pos ⟨hi, hc⟩]
    exact adaptiveThreshold_const (toGray data w h) w h (bwBlockSize w h) 10 _
      hw hh hgray (by norm_num) i hi
  have h0 := hat 0 (by omega)
  rw [Nat.add_zero] at h0
  exact ⟨h0, hat 1 (by omega), hat 2 (by omega)⟩

/-- Witness for `enhanceBW_uniform`: a 1×1 uniform mid-gray image. -/
theorem enhanceBW_uniform_witness :
    (0 < 1 ∧ ∀ i < 1 * 1, (fun _ => (128 : ℚ)) (i * 4) = 128 ∧
      (fun _ => (128 : ℚ)) (i * 4 + 1) = 128 ∧
      (fun _ => (128 : ℚ)) (i * 4 + 2) = 128) ∧
    ((∀ i < 1 * 1, enhanceBW (fun _ => (128 : ℚ)) 1 1 (i * 4) = 255 ∧
        enhanceBW (fun _ => (128 : ℚ)) 1 1 (i * 4 + 1) = 255 ∧
        enhanceBW (fun _ => (128 : ℚ)) 1 1 (i * 4 + 2) = 255) ∨
      (∀ i < 1 * 1, enhanceBW (fun _ => (128 : ℚ)) 1 1 (i * 4) = 0 ∧
        enhanceBW (fun _ => (128 : ℚ)) 1 1 (i * 4 + 1) = 0 ∧
        enhanceBW (fun _ => (128 : ℚ)) 1 1 (i * 4 + 2) = 0)) :=
  ⟨⟨Nat.one_pos, fun _ _ => ⟨rfl, rfl, rfl⟩⟩,
    enhanceBW_uniform 1 1 (fun _ => 128) 128 128 128 Nat.one_pos Nat.one_pos
      (fun _ _ => ⟨rfl, rfl, rfl⟩)⟩

/-- C9 counterexample: on an undecodable payload the `detect` branch of the
message handler posts a `corners` message whose payload is `null` — a
silent default, not a tagged error message. -/
theorem detect_decode_failure_cex :
    handleDetect (none : Option Unit) (fun _ => none) (fun _ => none)
        (fun _ => ()) (fun _ => none) (fun _ => ()) (fun _ => none) =
      OutMsg.corners none ∧
    OutMsg.isError (handleDetect (none : Option Unit) (fun _ => none)
        (fun _ => none) (fun _ => ()) (fun _ => none) (fun _ => ())
        (fun _ => none)) = false :=
  ⟨rfl, rfl⟩

/-- C9 (amended): an undecodable payload makes the `process` and
`previewFilters` handler branches post a tagged error message carrying the
decode error string with no partial output, while the `detect` branch
instead posts a `corners` message with `null` payload (no error path). -/
theorem decode_failure_surfacing {Gray EdgeMap Lines : Type}
    (decodeErrMsg : String) (sqrtA : ℚ → ℚ)
    (enh : EnhanceMode → (ℕ → ℚ) → ℕ → ℕ → (ℕ → ℚ)) (sw sh : ℕ)
    (corners : Quad) (mode : EnhanceMode) (encode : (ℕ → ℚ) → String)
    (s1 s2 : Gray → Option Quad) (canny : Gray → EdgeMap)
    (s3 : EdgeMap → Option Quad) (hough : EdgeMap → Lines)
    (s4 : Lines → Option Quad) :
    handleProcess none decodeErrMsg sqrtA enh sw sh corners mode encode =
        OutMsg.error decodeErrMsg ∧
    handlePreview none decodeErrMsg sqrtA enh sw sh corners encode =
        OutMsg.error decodeErrMsg ∧
    handleDetect (none : Option Gray) s1 s2 canny s3 hough s4 =
        OutMsg.corners none :=
  ⟨rfl, rfl, rfl⟩
